import Mathlib

/-!
Package `fisheyedewarp`: a shallow embedding of `fisheyedewarp.go` and the
properties of it that the specification states.

Modelling conventions.

* `float64` values are elements of a linearly ordered field `α`; the functions
  of Go's `math` package that the source calls are the fields of the class
  `GoMath`.  Theorems that need the meaning of those functions are stated at
  `α = ℝ`, where they are the real functions (`Real.sin`, `Real.arctan`, ...).
  Rounding, overflow, infinities and NaN of the `float64` operations are not
  modelled: they are exact.  The maps of `remap` hold the `float64` values
  that lines 184 and 185 convert; the conversion `float32(...)` itself is
  `toFloat32` (round to nearest, ties to even, overflow to an infinity), and
  `remapFloat32` is `remap` with every entry converted.
* Go `int` values are `Int`, with `/` the truncating `Int.tdiv`; slice lengths
  and matrix sizes are `Nat`.
* A Go function that can stop with an error value or a run-time panic returns
  `Except (Fault α) _`; `Fault.isError` tells the returned errors from the
  panics.
* Slices of slices are `List (List α)`; every slice access of the source that
  can be out of range is a checked access (`at2`, the `match` on the first
  row) in the model.
* Of the `gocv` library only what `Dewarp` observes is modelled: the size of a
  matrix, the bounds assertion of `Mat.Region`, the empty-slice error of
  `NewMatFromBytes`.  The resampling `gocv.Remap` is not computed: `Dewarp`
  returns the region and the two coordinate maps that are handed to it.
-/

namespace Fisheyedewarp

/-! ## Go's `math` package -/

/-- The functions and constants of Go's `math` package used by the source. -/
class GoMath (α : Type) where
  /-- Go's `math.Pi`. -/
  pi : α
  /-- Go's `math.Sqrt`. -/
  sqrt : α → α
  /-- Go's `math.Pow`. -/
  pow : α → α → α
  /-- Go's `math.Hypot`. -/
  hypot : α → α → α
  /-- Go's `math.Sin`. -/
  sin : α → α
  /-- Go's `math.Tan`. -/
  tan : α → α
  /-- Go's `math.Atan`. -/
  atan : α → α

/-- The `math` package over the real numbers. -/
noncomputable instance realMath : GoMath ℝ where
  pi := Real.pi
  sqrt := Real.sqrt
  pow := fun x y => Real.rpow x y
  hypot := fun x y => Real.sqrt (x ^ 2 + y ^ 2)
  sin := Real.sin
  tan := Real.tan
  atan := Real.arctan

/-! ## Outcomes -/

/-- The ways in which a call can stop without a result. -/
inductive Fault (α : Type) where
  /-- Returned error `invalid FOV: %f, must be in the range 0 < fov <= 180`. -/
  | invalidFOV (fov : α)
  /-- Returned error `invalid PFOV: %f, must be in the range 0 < pfov < 180`. -/
  | invalidPFOV (pfov : α)
  /-- Returned error of `gocv.NewMatFromBytes` on an empty byte slice. -/
  | emptyByteSlice
  /-- Run-time panic: index out of range. -/
  | indexOutOfRange
  /-- Failed bounds assertion of OpenCV when a region is taken. -/
  | regionAssertion

/-- A fault is an error when it is returned to the caller as an `error`
value; the other faults abort the program. -/
def Fault.isError {α : Type} : Fault α → Bool
  | .invalidFOV _ => true
  | .invalidPFOV _ => true
  | .emptyByteSlice => true
  | .indexOutOfRange => false
  | .regionAssertion => false

/-- All results of a list of outcomes, or the first fault: the loops of the
source stop at the first failing iteration. -/
def collect {ε β : Type} : List (Except ε β) → Except ε (List β)
  | [] => .ok []
  | x :: rest =>
    match x with
    | .error e => .error e
    | .ok b =>
      match collect rest with
      | .error e => .error e
      | .ok bs => .ok (b :: bs)

/-! ## Projection types -/

/-- The Go type `ProjectionType`, a string. -/
abbrev ProjectionType := String

/-- Constant `Linear`. -/
def Linear : ProjectionType := "Linear"
/-- Constant `EqualArea`. -/
def EqualArea : ProjectionType := "EqualArea"
/-- Constant `Orthographic`. -/
def Orthographic : ProjectionType := "Orthographic"
/-- Constant `Stereographic`. -/
def Stereographic : ProjectionType := "Stereographic"

/-! ## The `gocv` and `image` boundary -/

/-- What `Dewarp` observes of a `gocv.Mat`: `Cols()` and `Rows()`. -/
structure Mat where
  cols : Nat
  rows : Nat
deriving DecidableEq, Repr

/-- Go's `image.Rectangle`. -/
structure Rectangle where
  minX : Int
  minY : Int
  maxX : Int
  maxY : Int
deriving DecidableEq, Repr

/-- Go's `image.Rect`: the rectangle with the given corners, the coordinates
swapped where needed so that it is well-formed. -/
def imageRect (x0 y0 x1 y1 : Int) : Rectangle :=
  { minX := if x0 > x1 then x1 else x0
    minY := if y0 > y1 then y1 else y0
    maxX := if x0 > x1 then x0 else x1
    maxY := if y0 > y1 then y0 else y1 }

/-- The method `Mat.Region`: the sub-matrix of `m` on `r`.  OpenCV asserts that
the rectangle lies inside the matrix, and gives an empty rectangle the size
0 by 0. -/
def Mat.Region {α : Type} (m : Mat) (r : Rectangle) : Except (Fault α) Mat :=
  if 0 ≤ r.minX ∧ 0 ≤ r.maxX - r.minX ∧ r.maxX ≤ (m.cols : Int) ∧
      0 ≤ r.minY ∧ 0 ≤ r.maxY - r.minY ∧ r.maxY ≤ (m.rows : Int) then
    if r.maxX - r.minX ≤ 0 ∨ r.maxY - r.minY ≤ 0 then
      .ok { cols := 0, rows := 0 }
    else
      .ok { cols := (r.maxX - r.minX).toNat, rows := (r.maxY - r.minY).toNat }
  else
    .error .regionAssertion

/-- A `CV32F` matrix built from a flat buffer. -/
structure MapMat (α : Type) where
  rows : Nat
  cols : Nat
  data : List α

/-- The function `gocv.NewMatFromBytes`: it returns an error when the byte
slice is empty. -/
def newMatFromBytes {α : Type} (rows cols nbytes : Nat) (flatData : List α) :
    Except (Fault α) (MapMat α) :=
  if nbytes = 0 then .error .emptyByteSlice
  else .ok { rows := rows, cols := cols, data := flatData }

/-- What `Dewarp` hands to `gocv.Remap`, standing for the image it returns: the
cropped region and the two coordinate maps. -/
structure Remapped (α : Type) where
  region : Rectangle
  roi : Mat
  xsMat : MapMat α
  ysMat : MapMat α

/-! ## The source functions -/

/-- The bounds computed by `Dewarp` for the region (lines 38 to 47). -/
structure Bounds where
  x0 : Int
  xf : Int
  y0 : Int
  yf : Int
deriving DecidableEq, Repr

/-- Lines 38 to 47 of `Dewarp`: the bounds of the region of a source of
`rawWidth` columns and `rawHeight` rows.  The conversion of the two sizes to
`float64` and of their minimum back to `int` is exact. -/
def regionBounds (rawWidth rawHeight : Int) : Bounds :=
  let rawXCenter := rawWidth.tdiv 2
  let rawYCenter := rawHeight.tdiv 2
  let dim := min rawWidth rawHeight
  { x0 := rawXCenter - dim.tdiv 2
    xf := rawXCenter + dim.tdiv 2
    y0 := rawYCenter - dim.tdiv 2
    yf := rawYCenter + dim.tdiv 2 }

/-- The function `arange`. -/
def arange {α : Type} [NatCast α] (n : Nat) : List α :=
  (List.range n).map fun (k : Nat) => (k : α)

/-- The function `meshgrid`: row `i` of the first grid is `x`, row `i` of the
second is `y[i]` repeated `len(x)` times. -/
def meshgrid {α : Type} (x y : List α) : List (List α) × List (List α) :=
  (y.map fun _ => x, y.map fun yi => x.map fun _ => yi)

/-- The access `g[row][col]` of a slice of slices. -/
def at2 {α : Type} (g : List (List α)) (row col : Nat) : Except (Fault α) α :=
  match g[row]? with
  | none => .error .indexOutOfRange
  | some r =>
    match r[col]? with
    | none => .error .indexOutOfRange
    | some v => .ok v

/-- The grids `i` and `j` can be read at every pixel of a grid of `rows` rows
and `cols` columns. -/
def Accessible {α : Type} (i j : List (List α)) (rows cols : Nat) : Prop :=
  ∀ row col, row < rows → col < cols →
    ∃ iv jv, at2 i row col = .ok iv ∧ at2 j row col = .ok jv

/-- The entries `xd`, `yd`, `rd`, `phiang` of one pixel. -/
structure Radial (α : Type) where
  xd : α
  yd : α
  rd : α
  phiang : α

section Arithmetic

variable {α : Type} [LinearOrderedField α] [GoMath α]

/-- Lines 128 to 134 of `remap`: the entries of the pixel whose grid values
are `iv = i[row][col]` and `jv = j[row][col]`. -/
def radialOf (iv jv ofocinv xcenter ycenter : α) : Radial α :=
  let xdVal := iv - xcenter
  let ydVal := jv - ycenter
  let rdVal := GoMath.hypot xdVal ydVal
  { xd := xdVal, yd := ydVal, rd := rdVal, phiang := GoMath.atan (ofocinv * rdVal) }

/-- The body of the first loop of `remap` (lines 128 to 134), with its two
slice accesses. -/
def radialAt (i j : List (List α)) (ofocinv xcenter ycenter : α) (row col : Nat) :
    Except (Fault α) (Radial α) :=
  match at2 i row col with
  | .error e => .error e
  | .ok iv =>
    match at2 j row col with
    | .error e => .error e
    | .ok jv => .ok (radialOf iv jv ofocinv xcenter ycenter)

/-- The first loop of `remap` (lines 120 to 136). -/
def radialField (i j : List (List α)) (rows cols : Nat) (ofocinv xcenter ycenter : α) :
    Except (Fault α) (List (List (Radial α))) :=
  collect ((List.range rows).map fun row =>
    collect ((List.range cols).map fun col => radialAt i j ofocinv xcenter ycenter row col))

/-- The first `switch` of `remap` (lines 138 to 151); `ifoc` keeps its zero
value when no case applies. -/
def ifocOf (projectionType : ProjectionType) (dim fov : α) : α :=
  if projectionType = Linear then dim * 180 / (fov * GoMath.pi)
  else if projectionType = EqualArea then dim / (2 * GoMath.sin (fov * GoMath.pi / 720))
  else if projectionType = Orthographic then dim / (2 * GoMath.sin (fov * GoMath.pi / 360))
  else if projectionType = Stereographic then dim / (2 * GoMath.tan (fov * GoMath.pi / 720))
  else 0

/-- The second `switch` of `remap` (lines 155 to 168); `rrVal` keeps its zero
value when no case applies. -/
def rrOf (projectionType : ProjectionType) (ifoc phiang : α) : α :=
  if projectionType = Linear then ifoc * phiang
  else if projectionType = EqualArea then ifoc * GoMath.sin (phiang / 2)
  else if projectionType = Orthographic then ifoc * GoMath.sin phiang
  else if projectionType = Stereographic then ifoc * GoMath.tan (phiang / 2)
  else 0

/-- The entry of `xs` written by the last loop of `remap` (lines 182 to 189)
at a pixel with the entries `p` and forward radius `rr`, before its
conversion `float32(...)`, which `remapFloat32` applies. -/
def xsAt (xcenter : α) (p : Radial α) (rr : α) : α :=
  if p.rd ≠ 0 then rr / p.rd * p.xd + xcenter else 0

/-- The entry of `ys` written by the last loop of `remap`, before its
conversion `float32(...)`, which `remapFloat32` applies. -/
def ysAt (ycenter : α) (p : Radial α) (rr : α) : α :=
  if p.rd ≠ 0 then rr / p.rd * p.yd + ycenter else 0

/-- The function `remap`.  The five intermediate arrays of the source are kept
as one grid of `Radial` records; `rr[row][col]` is `rrOf` of that pixel's
`phiang`. -/
def remap (i j : List (List α)) (ofocinv dim fov xcenter ycenter : α)
    (projectionType : ProjectionType) : Except (Fault α) (List (List α) × List (List α)) :=
  match i with
  | [] => .error .indexOutOfRange
  | i0 :: _ =>
    let rows := i.length
    let cols := i0.length
    match radialField i j rows cols ofocinv xcenter ycenter with
    | .error e => .error e
    | .ok field =>
      let ifoc := ifocOf projectionType dim fov
      .ok (field.map fun r => r.map fun p => xsAt xcenter p (rrOf projectionType ifoc p.phiang),
           field.map fun r => r.map fun p => ysAt ycenter p (rrOf projectionType ifoc p.phiang))

/-- The function `convertToMat`, on the rectangular maps that `Dewarp` passes
to it.  On rows of different lengths the byte slice of the source covers
`rows * len(data[0])` values of `flatData`, which the model does not cut
off. -/
def convertToMat (data : List (List α)) : Except (Fault α) (MapMat α) :=
  match data with
  | [] => .error .indexOutOfRange
  | d0 :: _ =>
    let rows := data.length
    let cols := d0.length
    let totalElements := rows * cols
    let flatData := data.flatten
    match flatData with
    | [] => .error .indexOutOfRange
    | _ :: _ => newMatFromBytes rows cols (totalElements * 4) flatData

/-- Line 55 of `Dewarp`: the diagonal of the region. -/
def dimFOf (width height : Nat) : α :=
  GoMath.sqrt (GoMath.pow (width : α) 2 + GoMath.pow (height : α) 2)

/-- Line 56 of `Dewarp`. -/
def ofocOf (dimF pfov : α) : α :=
  dimF / (2 * GoMath.tan (pfov * GoMath.pi / 360))

/-- Line 57 of `Dewarp`. -/
def ofocinvOf (dimF pfov : α) : α :=
  1 / ofocOf dimF pfov

/-- Lines 55 to 65 of `Dewarp`: the coordinate maps of a region of the given
size. -/
def regionMaps (width height : Nat) (fov pfov : α) (projectionType : ProjectionType) :
    Except (Fault α) (List (List α) × List (List α)) :=
  let dimF : α := dimFOf width height
  let ofocinv := ofocinvOf dimF pfov
  let i : List α := arange width
  let j : List α := arange height
  let grids := meshgrid i j
  let xCenter : α := (((width : Int) - 1 : Int) : α) / 2
  let yCenter : α := (((height : Int) - 1 : Int) : α) / 2
  remap grids.1 grids.2 ofocinv dimF fov xCenter yCenter projectionType

/-- The function `Dewarp`. -/
def Dewarp (img : Mat) (fov pfov : α) (projectionType : ProjectionType) :
    Except (Fault α) (Remapped α) :=
  if fov ≤ 0 ∨ fov > 180 then .error (.invalidFOV fov)
  else if pfov ≤ 0 ∨ pfov ≥ 180 then .error (.invalidPFOV pfov)
  else
    let b := regionBounds img.cols img.rows
    let rect := imageRect b.x0 b.y0 b.xf b.yf
    match img.Region rect with
    | .error e => .error e
    | .ok roi =>
      match regionMaps roi.cols roi.rows fov pfov projectionType with
      | .error e => .error e
      | .ok maps =>
        match convertToMat maps.1 with
        | .error e => .error e
        | .ok xsMat =>
          match convertToMat maps.2 with
          | .error e => .error e
          | .ok ysMat => .ok { region := rect, roi := roi, xsMat := xsMat, ysMat := ysMat }

end Arithmetic

/-! ## The conversion to `float32` -/

/-- A `float32` value that the conversion of a `float64` number gives: a
number or an infinity. -/
inductive Float32 (α : Type) where
  /-- A finite value. -/
  | finite (x : α)
  /-- The value `+Inf`. -/
  | posInf
  /-- The value `-Inf`. -/
  | negInf

section Conversion

variable {α : Type} [LinearOrderedField α] [FloorRing α]

/-- The nearest integer, the even one of the two at a tie. -/
def roundEven (x : α) : Int :=
  if x - (Int.floor x : α) < 1 / 2 then Int.floor x
  else if 1 / 2 < x - (Int.floor x : α) then Int.floor x + 1
  else if Int.floor x % 2 = 0 then Int.floor x
  else Int.floor x + 1

/-- The exponent of the spacing of the `float32` values around `x`: 24 bits of
precision in the binade of `x`, and the spacing `2^(-149)` of the subnormal
values below `2^(-126)`. -/
def ulpExp (x : α) : Int :=
  max (Int.log 2 |x|) (-126) - 23

/-- Go's conversion `float32(x)` of a `float64` number `x`: the nearest
`float32` value, the one with an even last bit at a tie, and an infinity from
`2^128 - 2^103` on, the midpoint between the largest `float32` value and
`2^128`. -/
def toFloat32 (x : α) : Float32 α :=
  if (2 : α) ^ 128 - 2 ^ 103 ≤ |x| then
    if 0 < x then .posInf else .negInf
  else
    .finite ((roundEven (x / (2 : α) ^ ulpExp x) : α) * (2 : α) ^ ulpExp x)

variable [GoMath α]

/-- The function `remap` with the conversions `float32(...)` of lines 184 and
185: the maps as the source returns them. -/
def remapFloat32 (i j : List (List α)) (ofocinv dim fov xcenter ycenter : α)
    (projectionType : ProjectionType) :
    Except (Fault α) (List (List (Float32 α)) × List (List (Float32 α))) :=
  match remap i j ofocinv dim fov xcenter ycenter projectionType with
  | .error e => .error e
  | .ok maps => .ok (maps.1.map fun r => r.map toFloat32, maps.2.map fun r => r.map toFloat32)

/-- Lines 55 to 65 of `Dewarp` with the maps as `remap` returns them, in
`float32`. -/
def regionMapsFloat32 (width height : Nat) (fov pfov : α) (projectionType : ProjectionType) :
    Except (Fault α) (List (List (Float32 α)) × List (List (Float32 α))) :=
  let dimF : α := dimFOf width height
  let ofocinv := ofocinvOf dimF pfov
  let i : List α := arange width
  let j : List α := arange height
  let grids := meshgrid i j
  let xCenter : α := (((width : Int) - 1 : Int) : α) / 2
  let yCenter : α := (((height : Int) - 1 : Int) : α) / 2
  remapFloat32 grids.1 grids.2 ofocinv dimF fov xCenter yCenter projectionType

end Conversion

/-- The tangent is defined at `x`: `x` is no odd multiple of `pi/2`. -/
def TanDefined (x : ℝ) : Prop :=
  ∀ k : ℤ, x ≠ (2 * k + 1) * Real.pi / 2

/-! ## Lemmas on the loops -/

section Loops

variable {ε β : Type}

theorem collect_eq_ok_iff (l : List (Except ε β)) (r : List β) :
    collect l = .ok r ↔ l = r.map Except.ok := by
  induction l generalizing r with
  | nil =>
    cases r with
    | nil => simp [collect]
    | cons b bs => simp [collect]
  | cons x rest ih =>
    cases x with
    | error e => cases r <;> simp [collect]
    | ok b =>
      cases r with
      | nil => cases hc : collect rest <;> simp [collect, hc]
      | cons c cs =>
        have h2 := ih cs
        cases hc : collect rest with
        | error e =>
          rw [hc] at h2
          simp only [collect, hc, List.map_cons, List.cons.injEq, Except.ok.injEq]
          constructor
          · intro h
            cases h
          · rintro ⟨_, h⟩
            exact absurd (h2.mpr h) (by simp)
        | ok bs =>
          rw [hc] at h2
          simp only [collect, hc, List.map_cons, List.cons.injEq, Except.ok.injEq]
          constructor
          · rintro ⟨rfl, rfl⟩
            exact ⟨rfl, h2.mp rfl⟩
          · rintro ⟨hb, hr⟩
            exact ⟨hb, Except.ok.inj (h2.mpr hr)⟩

theorem collect_error_mem (l : List (Except ε β)) (e : ε) (h : collect l = .error e) :
    .error e ∈ l := by
  induction l with
  | nil => simp [collect] at h
  | cons x rest ih =>
    cases x with
    | error e2 =>
      simp only [collect, Except.error.injEq] at h
      simp [h]
    | ok b =>
      cases hc : collect rest with
      | error e2 =>
        simp only [collect, hc, Except.error.injEq] at h
        subst h
        exact List.mem_cons_of_mem _ (ih hc)
      | ok bs => simp [collect, hc] at h

theorem collect_range_ok (n : Nat) (f : Nat → Except ε β) (r : List β)
    (h : collect ((List.range n).map f) = .ok r) :
    r.length = n ∧ ∀ k, k < n → (r[k]?).map Except.ok = some (f k) := by
  rw [collect_eq_ok_iff] at h
  have hlen : r.length = n := by
    have := congrArg List.length h
    simpa using this.symm
  refine ⟨hlen, fun k hk => ?_⟩
  have := congrArg (fun l => l[k]?) h
  simp only [List.getElem?_map, List.getElem?_range hk, Option.map_some'] at this
  exact this.symm

theorem collect_ok_of_forall (l : List (Except ε β))
    (h : ∀ x ∈ l, ∃ b, x = Except.ok b) : ∃ r, collect l = .ok r := by
  cases hc : collect l with
  | ok r => exact ⟨r, rfl⟩
  | error e =>
    obtain ⟨b, hb⟩ := h _ (collect_error_mem l e hc)
    cases hb

theorem at2_error {α : Type} (g : List (List α)) (row col : Nat) (e : Fault α)
    (h : at2 g row col = .error e) : e = .indexOutOfRange := by
  unfold at2 at h
  split at h
  · cases h; rfl
  · split at h
    · cases h; rfl
    · cases h

end Loops

section GridLemmas

variable {α : Type} [NatCast α]

theorem arange_length (n : Nat) : (arange n : List α).length = n := by
  unfold arange
  rw [List.length_map, List.length_range]

theorem arange_getElem? (n k : Nat) (hk : k < n) : (arange n : List α)[k]? = some (k : α) := by
  unfold arange
  rw [List.getElem?_map, List.getElem?_range hk]
  rfl

theorem at2_meshgrid_fst (w h row col : Nat) (hr : row < h) (hc : col < w) :
    at2 (meshgrid (arange w : List α) (arange h : List α)).1 row col = .ok (col : α) := by
  unfold at2 meshgrid
  simp only [List.getElem?_map, arange_getElem? h row hr, Option.map_some',
    arange_getElem? w col hc]

theorem at2_meshgrid_snd (w h row col : Nat) (hr : row < h) (hc : col < w) :
    at2 (meshgrid (arange w : List α) (arange h : List α)).2 row col = .ok (row : α) := by
  unfold at2 meshgrid
  simp only [List.getElem?_map, arange_getElem? h row hr, Option.map_some',
    arange_getElem? w col hc]

theorem meshgrid_fst_cons (w h : Nat) (hh : 0 < h) :
    ∃ rest, (meshgrid (arange w : List α) (arange h : List α)).1 = arange w :: rest ∧
      rest.length + 1 = h := by
  have hl := arange_length (α := α) h
  cases hy : (arange h : List α) with
  | nil =>
    rw [hy] at hl
    simp at hl
    omega
  | cons y0 ys =>
    rw [hy] at hl
    refine ⟨ys.map fun _ => arange w, rfl, ?_⟩
    rw [List.length_map]
    simpa using hl

theorem meshgrid_length (w h : Nat) :
    (meshgrid (arange w : List α) (arange h : List α)).1.length = h ∧
    (meshgrid (arange w : List α) (arange h : List α)).2.length = h := by
  unfold meshgrid
  simp only [List.length_map, arange_length, and_self]

theorem meshgrid_rows (w h : Nat) :
    (∀ r ∈ (meshgrid (arange w : List α) (arange h : List α)).1, r.length = w) ∧
    (∀ r ∈ (meshgrid (arange w : List α) (arange h : List α)).2, r.length = w) := by
  unfold meshgrid
  constructor
  · intro r hr
    obtain ⟨_, _, rfl⟩ := List.mem_map.mp hr
    exact arange_length w
  · intro r hr
    obtain ⟨_, _, rfl⟩ := List.mem_map.mp hr
    rw [List.length_map]
    exact arange_length w

theorem Accessible_meshgrid (w h : Nat) :
    Accessible (meshgrid (arange w : List α) (arange h : List α)).1
      (meshgrid (arange w : List α) (arange h : List α)).2 h w :=
  fun row col hr hc =>
    ⟨_, _, at2_meshgrid_fst w h row col hr hc, at2_meshgrid_snd w h row col hr hc⟩

end GridLemmas

section RemapLemmas

variable {α : Type} [LinearOrderedField α] [GoMath α]

theorem radialAt_error (i j : List (List α)) (o xc yc : α) (row col : Nat) (e : Fault α)
    (h : radialAt i j o xc yc row col = .error e) : e = .indexOutOfRange := by
  unfold radialAt at h
  split at h
  · next e2 h1 =>
    cases h
    exact at2_error _ _ _ _ h1
  · split at h
    · next e2 h2 =>
      cases h
      exact at2_error _ _ _ _ h2
    · cases h

theorem radialField_error (i j : List (List α)) (rows cols : Nat) (o xc yc : α) (e : Fault α)
    (h : radialField i j rows cols o xc yc = .error e) : e = .indexOutOfRange := by
  unfold radialField at h
  have h1 := collect_error_mem _ _ h
  simp only [List.mem_map, List.mem_range] at h1
  obtain ⟨row, _, h2⟩ := h1
  have h3 := collect_error_mem _ _ h2
  simp only [List.mem_map, List.mem_range] at h3
  obtain ⟨col, _, h4⟩ := h3
  exact radialAt_error _ _ _ _ _ _ _ _ h4

theorem radialField_ok (i j : List (List α)) (rows cols : Nat) (o xc yc : α)
    (field : List (List (Radial α)))
    (h : radialField i j rows cols o xc yc = .ok field) :
    field.length = rows ∧ ∀ row, row < rows → ∃ fr, field[row]? = some fr ∧ fr.length = cols ∧
      ∀ col, col < cols → ∃ p, fr[col]? = some p ∧ radialAt i j o xc yc row col = .ok p := by
  unfold radialField at h
  obtain ⟨hlen, hrow⟩ := collect_range_ok _ _ _ h
  refine ⟨hlen, fun row hr => ?_⟩
  have h1 := hrow row hr
  cases hf : field[row]? with
  | none => simp [hf] at h1
  | some fr =>
    rw [hf] at h1
    simp only [Option.map_some', Option.some.injEq] at h1
    obtain ⟨hl2, hcol⟩ := collect_range_ok _ _ _ h1.symm
    refine ⟨fr, rfl, hl2, fun col hc => ?_⟩
    have h2 := hcol col hc
    cases hp : fr[col]? with
    | none => simp [hp] at h2
    | some p =>
      rw [hp] at h2
      simp only [Option.map_some', Option.some.injEq] at h2
      exact ⟨p, rfl, h2.symm⟩

theorem radialField_total (i j : List (List α)) (rows cols : Nat) (o xc yc : α)
    (h : ∀ row col, row < rows → col < cols →
      ∃ p, radialAt i j o xc yc row col = .ok p) :
    ∃ field, radialField i j rows cols o xc yc = .ok field := by
  unfold radialField
  apply collect_ok_of_forall
  intro x hx
  simp only [List.mem_map, List.mem_range] at hx
  obtain ⟨row, hr, rfl⟩ := hx
  apply collect_ok_of_forall
  intro y hy
  simp only [List.mem_map, List.mem_range] at hy
  obtain ⟨col, hc, rfl⟩ := hy
  exact h row col hr hc

theorem remap_error (i j : List (List α)) (o dim fov xc yc : α) (pt : ProjectionType)
    (e : Fault α) (h : remap i j o dim fov xc yc pt = .error e) : e = .indexOutOfRange := by
  unfold remap at h
  split at h
  · cases h; rfl
  · simp only at h
    split at h
    · next e2 h2 =>
      cases h
      exact radialField_error _ _ _ _ _ _ _ _ h2
    · cases h

theorem radialAt_ok (i j : List (List α)) (o xc yc : α) (row col : Nat) (p : Radial α)
    (h : radialAt i j o xc yc row col = .ok p) :
    ∃ iv jv, at2 i row col = .ok iv ∧ at2 j row col = .ok jv ∧ p = radialOf iv jv o xc yc := by
  unfold radialAt at h
  split at h
  · cases h
  · next iv h1 =>
    split at h
    · cases h
    · next jv h2 =>
      cases h
      exact ⟨iv, jv, h1, h2, rfl⟩

theorem at2_map {β γ : Type} (f : β → γ) (g : List (List β)) (row col : Nat) (r : List β)
    (v : β) (hr : g[row]? = some r) (hv : r[col]? = some v) :
    at2 (g.map fun x => x.map f) row col = (.ok (f v) : Except (Fault γ) γ) := by
  simp [at2, List.getElem?_map, hr, hv]

/-- The shape and the entries of the result of `remap`. -/
theorem remap_ok (i j : List (List α)) (o dim fov xc yc : α) (pt : ProjectionType)
    (maps : List (List α) × List (List α)) (h : remap i j o dim fov xc yc pt = .ok maps) :
    ∃ i0 rest field, i = i0 :: rest ∧
      radialField i j i.length i0.length o xc yc = .ok field ∧
      maps.1 = (field.map fun r => r.map fun p =>
        xsAt xc p (rrOf pt (ifocOf pt dim fov) p.phiang)) ∧
      maps.2 = (field.map fun r => r.map fun p =>
        ysAt yc p (rrOf pt (ifocOf pt dim fov) p.phiang)) := by
  unfold remap at h
  split at h
  · cases h
  · next i0 rest =>
    simp only at h
    split at h
    · cases h
    · next field hf =>
      cases h
      exact ⟨i0, rest, field, rfl, hf, rfl, rfl⟩

theorem radialField_rows (i j : List (List α)) (rows cols : Nat) (o xc yc : α)
    (field : List (List (Radial α)))
    (h : radialField i j rows cols o xc yc = .ok field) :
    ∀ r ∈ field, r.length = cols := by
  obtain ⟨hlen, hrow⟩ := radialField_ok _ _ _ _ _ _ _ _ h
  intro r hr
  obtain ⟨k, hk, hkr⟩ := List.getElem_of_mem hr
  obtain ⟨fr, hfr, hl, _⟩ := hrow k (hlen ▸ hk)
  rw [List.getElem?_eq_getElem hk, hkr] at hfr
  cases hfr
  exact hl

theorem remap_rows (i j : List (List α)) (o dim fov xc yc : α) (pt : ProjectionType)
    (maps : List (List α) × List (List α)) (h : remap i j o dim fov xc yc pt = .ok maps) :
    ∃ i0 rest, i = i0 :: rest ∧ maps.1.length = i.length ∧ maps.2.length = i.length ∧
      (∀ r ∈ maps.1, r.length = i0.length) ∧ (∀ r ∈ maps.2, r.length = i0.length) := by
  obtain ⟨i0, rest, field, hi, hf, h1, h2⟩ := remap_ok _ _ _ _ _ _ _ _ _ h
  have hrows := radialField_rows _ _ _ _ _ _ _ _ hf
  have hlen := (radialField_ok _ _ _ _ _ _ _ _ hf).1
  refine ⟨i0, rest, hi, ?_, ?_, ?_, ?_⟩
  · rw [h1, List.length_map, hlen]
  · rw [h2, List.length_map, hlen]
  · intro r hr
    rw [h1] at hr
    obtain ⟨fr, hfr, rfl⟩ := List.mem_map.mp hr
    rw [List.length_map]
    exact hrows fr hfr
  · intro r hr
    rw [h2] at hr
    obtain ⟨fr, hfr, rfl⟩ := List.mem_map.mp hr
    rw [List.length_map]
    exact hrows fr hfr

theorem remap_total (i j : List (List α)) (o dim fov xc yc : α) (pt : ProjectionType)
    (i0 : List α) (rest : List (List α)) (hi : i = i0 :: rest)
    (h : Accessible i j i.length i0.length) :
    ∃ maps, remap i j o dim fov xc yc pt = .ok maps := by
  have hf : ∃ field, radialField i j i.length i0.length o xc yc = .ok field := by
    apply radialField_total
    intro row col hr hc
    obtain ⟨iv, jv, h1, h2⟩ := h row col hr hc
    exact ⟨radialOf iv jv o xc yc, by simp only [radialAt, h1, h2]⟩
  obtain ⟨field, hfield⟩ := hf
  subst hi
  simp only [remap]
  simp only [List.length_cons] at hfield
  simp only [List.length_cons, hfield]
  exact ⟨_, rfl⟩

/-- The entries of the maps that `remap` returns, at a pixel of the grid. -/
theorem remap_entry (i j : List (List α)) (o dim fov xc yc : α) (pt : ProjectionType)
    (i0 : List α) (rest : List (List α)) (hi : i = i0 :: rest)
    (maps : List (List α) × List (List α)) (h : remap i j o dim fov xc yc pt = .ok maps)
    (row col : Nat) (hrow : row < i.length) (hcol : col < i0.length) (iv jv : α)
    (hiv : at2 i row col = .ok iv) (hjv : at2 j row col = .ok jv) :
    at2 maps.1 row col = .ok (xsAt xc (radialOf iv jv o xc yc)
      (rrOf pt (ifocOf pt dim fov) (radialOf iv jv o xc yc).phiang)) ∧
    at2 maps.2 row col = .ok (ysAt yc (radialOf iv jv o xc yc)
      (rrOf pt (ifocOf pt dim fov) (radialOf iv jv o xc yc).phiang)) := by
  obtain ⟨i1, rest1, field, hi1, hf, h1, h2⟩ := remap_ok _ _ _ _ _ _ _ _ _ h
  have hi01 : i1 = i0 := by
    rw [hi] at hi1
    cases hi1
    rfl
  subst hi01
  obtain ⟨_, hrows⟩ := radialField_ok _ _ _ _ _ _ _ _ hf
  obtain ⟨fr, hfr, _, hcols⟩ := hrows row hrow
  obtain ⟨p, hp, hrad⟩ := hcols col hcol
  obtain ⟨iv2, jv2, hiv2, hjv2, hpeq⟩ := radialAt_ok _ _ _ _ _ _ _ _ hrad
  rw [hiv] at hiv2
  rw [hjv] at hjv2
  cases hiv2
  cases hjv2
  subst hpeq
  rw [h1, h2]
  exact ⟨at2_map _ field row col fr _ hfr hp, at2_map _ field row col fr _ hfr hp⟩

theorem regionMaps_total (width height : Nat) (fov pfov : α) (pt : ProjectionType)
    (hh : 0 < height) :
    ∃ maps, regionMaps width height fov pfov pt = .ok maps ∧
      maps.1.length = height ∧ maps.2.length = height ∧
      (∀ r ∈ maps.1, r.length = width) ∧ (∀ r ∈ maps.2, r.length = width) := by
  obtain ⟨rest, hcons, hlen⟩ := meshgrid_fst_cons (α := α) width height hh
  have hw0 : (arange width : List α).length = width := arange_length width
  have hilen : (meshgrid (arange width : List α) (arange height : List α)).1.length = height := by
    rw [hcons, List.length_cons, hlen]
  have htot : ∃ maps, regionMaps width height fov pfov pt = .ok maps := by
    unfold regionMaps
    apply remap_total _ _ _ _ _ _ _ _ _ rest hcons
    intro row col hr hc
    rw [hilen] at hr
    rw [hw0] at hc
    exact ⟨_, _, at2_meshgrid_fst width height row col hr hc,
      at2_meshgrid_snd width height row col hr hc⟩
  obtain ⟨maps, hm⟩ := htot
  refine ⟨maps, hm, ?_⟩
  unfold regionMaps at hm
  obtain ⟨i0, rest2, hi, hl1, hl2, hr1, hr2⟩ := remap_rows _ _ _ _ _ _ _ _ _ hm
  have hi0 : i0 = arange width := by
    rw [hcons] at hi
    cases hi
    rfl
  rw [hi0, hw0] at hr1 hr2
  rw [hilen] at hl1 hl2
  exact ⟨hl1, hl2, hr1, hr2⟩

/-- The function `remap` on the grids of `meshgrid`, for any parameters: it
returns when the grid has a row, and the maps have the shape of the grid. -/
theorem remap_meshgrid_total (width height : Nat) (hh : 0 < height)
    (o dim fov xc yc : α) (pt : ProjectionType) :
    ∃ maps, remap (meshgrid (arange width : List α) (arange height)).1
        (meshgrid (arange width : List α) (arange height)).2 o dim fov xc yc pt = .ok maps ∧
      maps.1.length = height ∧ maps.2.length = height ∧
      (∀ r ∈ maps.1, r.length = width) ∧ (∀ r ∈ maps.2, r.length = width) := by
  obtain ⟨rest, hcons, hlen⟩ := meshgrid_fst_cons (α := α) width height hh
  have hw0 : (arange width : List α).length = width := arange_length width
  have hilen := (meshgrid_length (α := α) width height).1
  have hacc : Accessible (meshgrid (arange width : List α) (arange height)).1
      (meshgrid (arange width : List α) (arange height)).2
      (meshgrid (arange width : List α) (arange height)).1.length
      (arange width : List α).length := by
    rw [hilen, hw0]
    exact Accessible_meshgrid width height
  obtain ⟨maps, hm⟩ := remap_total _ _ o dim fov xc yc pt _ rest hcons hacc
  refine ⟨maps, hm, ?_⟩
  obtain ⟨i0, rest2, hi, hl1, hl2, hr1, hr2⟩ := remap_rows _ _ _ _ _ _ _ _ _ hm
  have hi0 : i0 = arange width := by
    rw [hcons] at hi
    cases hi
    rfl
  rw [hi0, hw0] at hr1 hr2
  rw [hilen] at hl1 hl2
  exact ⟨hl1, hl2, hr1, hr2⟩

/-- The entries of the maps that `remap` returns on the grids of `meshgrid`. -/
theorem remap_meshgrid_entry (width height : Nat) (o dim fov xc yc : α) (pt : ProjectionType)
    (maps : List (List α) × List (List α))
    (h : remap (meshgrid (arange width : List α) (arange height)).1
        (meshgrid (arange width : List α) (arange height)).2 o dim fov xc yc pt = .ok maps)
    (row col : Nat) (hrow : row < height) (hcol : col < width) :
    at2 maps.1 row col = .ok (xsAt xc (radialOf (col : α) (row : α) o xc yc)
      (rrOf pt (ifocOf pt dim fov) (radialOf (col : α) (row : α) o xc yc).phiang)) ∧
    at2 maps.2 row col = .ok (ysAt yc (radialOf (col : α) (row : α) o xc yc)
      (rrOf pt (ifocOf pt dim fov) (radialOf (col : α) (row : α) o xc yc).phiang)) := by
  obtain ⟨rest, hcons, _⟩ := meshgrid_fst_cons (α := α) width height (by omega)
  have hw0 : (arange width : List α).length = width := arange_length width
  have hilen := (meshgrid_length (α := α) width height).1
  exact remap_entry _ _ o dim fov xc yc pt _ rest hcons maps h row col
    (by rw [hilen]; exact hrow) (by rw [hw0]; exact hcol) _ _
    (at2_meshgrid_fst width height row col hrow hcol)
    (at2_meshgrid_snd width height row col hrow hcol)

end RemapLemmas

section MatLemmas

variable {α : Type}

theorem convertToMat_rect (data : List (List α)) (c : Nat) (hne : data ≠ []) (hc : 0 < c)
    (h : ∀ r ∈ data, r.length = c) :
    convertToMat data = .ok { rows := data.length, cols := c, data := data.flatten } := by
  cases data with
  | nil => exact absurd rfl hne
  | cons d0 rest =>
    have h0 : d0.length = c := h d0 (List.mem_cons_self _ _)
    cases d0 with
    | nil => simp at h0; omega
    | cons v vs =>
      simp only [List.length_cons] at h0
      have hc0 : c ≠ 0 := by omega
      simp [convertToMat, newMatFromBytes, h0, hc0]

theorem convertToMat_error_rect (data : List (List α)) (c : Nat)
    (h : ∀ r ∈ data, r.length = c) (e : Fault α) (he : convertToMat data = .error e) :
    e = .indexOutOfRange := by
  cases data with
  | nil => simp [convertToMat] at he; exact he.symm
  | cons d0 rest =>
    rcases Nat.eq_zero_or_pos c with hc | hc
    · have hall : ∀ r ∈ d0 :: rest, r = [] := fun r hr =>
        List.length_eq_zero.mp (by rw [h r hr, hc])
      have hf : (d0 :: rest).flatten = [] := by
        rw [List.flatten_eq_nil_iff]
        exact hall
      unfold convertToMat at he
      simp only [hf] at he
      cases he
      rfl
    · rw [convertToMat_rect _ c (by simp) hc h] at he
      cases he

theorem convertToMat_ok_data (data : List (List α)) (m : MapMat α)
    (h : convertToMat data = .ok m) : m.data = data.flatten ∧ m.rows = data.length := by
  unfold convertToMat at h
  split at h
  · cases h
  · simp only at h
    split at h
    · cases h
    · next hflat =>
      unfold newMatFromBytes at h
      split_ifs at h
      cases h
      exact ⟨rfl, rfl⟩

end MatLemmas

/-! ## The region -/

section RegionLemmas

theorem regionBounds_eq (W H : Int) (hW : 0 < W) (hH : 0 < H) :
    regionBounds W H =
      { x0 := W / 2 - min W H / 2, xf := W / 2 + min W H / 2,
        y0 := H / 2 - min W H / 2, yf := H / 2 + min W H / 2 } := by
  have hm : 0 ≤ min W H := le_min hW.le hH.le
  simp only [regionBounds, Int.tdiv_eq_ediv hW.le (by norm_num : (0 : Int) ≤ 2),
    Int.tdiv_eq_ediv hH.le (by norm_num : (0 : Int) ≤ 2),
    Int.tdiv_eq_ediv hm (by norm_num : (0 : Int) ≤ 2)]

theorem Region_regionBounds {α : Type} (W H : Nat) (hW : 0 < W) (hH : 0 < H) :
    (Mat.Region { cols := W, rows := H }
      (imageRect (regionBounds W H).x0 (regionBounds W H).y0
        (regionBounds W H).xf (regionBounds W H).yf) : Except (Fault α) Mat) =
      .ok { cols := 2 * (min W H / 2), rows := 2 * (min W H / 2) } := by
  have hW2 : (0 : Int) < W := by exact_mod_cast hW
  have hH2 : (0 : Int) < H := by exact_mod_cast hH
  rw [regionBounds_eq W H hW2 hH2]
  simp only
  have hx : ¬ (W / 2 - min (W : Int) H / 2 > W / 2 + min (W : Int) H / 2) := by omega
  have hy : ¬ (H / 2 - min (W : Int) H / 2 > H / 2 + min (W : Int) H / 2) := by omega
  simp only [imageRect, if_neg hx, if_neg hy, Mat.Region]
  rw [if_pos (by refine ⟨?_, ?_, ?_, ?_, ?_, ?_⟩ <;> omega)]
  have e1 : (W / 2 + min (W : Int) H / 2 - (W / 2 - min (W : Int) H / 2)).toNat
      = 2 * (min W H / 2) := by omega
  have e2 : (H / 2 + min (W : Int) H / 2 - (H / 2 - min (W : Int) H / 2)).toNat
      = 2 * (min W H / 2) := by omega
  rw [e1, e2]
  split_ifs with hc
  · have h0 : 2 * (min W H / 2) = 0 := by omega
    rw [h0]
  · rfl

end RegionLemmas

section DewarpLemmas

variable {α : Type} [LinearOrderedField α] [GoMath α]

/-- Once the two range checks have passed, `Dewarp` returns no error: it
returns its result or it aborts. -/
theorem Dewarp_fault_of_valid (img : Mat) (fov pfov : α) (pt : ProjectionType)
    (hf : ¬ (fov ≤ 0 ∨ fov > 180)) (hp : ¬ (pfov ≤ 0 ∨ pfov ≥ 180)) (e : Fault α)
    (h : Dewarp img fov pfov pt = .error e) : e.isError = false := by
  unfold Dewarp at h
  rw [if_neg hf, if_neg hp] at h
  simp only at h
  split at h
  · next e2 h2 =>
    cases h
    unfold Mat.Region at h2
    split_ifs at h2
    cases h2
    rfl
  · next roi hroi =>
    split at h
    · next e2 h2 =>
      cases h
      unfold regionMaps at h2
      rw [remap_error _ _ _ _ _ _ _ _ _ h2]
      rfl
    · next maps hm =>
      unfold regionMaps at hm
      obtain ⟨i0, rest, _, _, _, hr1, hr2⟩ := remap_rows _ _ _ _ _ _ _ _ _ hm
      split at h
      · next e2 h2 =>
        cases h
        rw [convertToMat_error_rect _ _ hr1 _ h2]
        rfl
      · split at h
        · next e2 h2 =>
          cases h
          rw [convertToMat_error_rect _ _ hr2 _ h2]
          rfl
        · cases h

/-- On a source with at least 2 columns and 2 rows, and with both angles in
range, `Dewarp` returns its result. -/
theorem Dewarp_total (img : Mat) (fov pfov : α) (pt : ProjectionType)
    (hf : ¬ (fov ≤ 0 ∨ fov > 180)) (hp : ¬ (pfov ≤ 0 ∨ pfov ≥ 180))
    (hc : 2 ≤ img.cols) (hr : 2 ≤ img.rows) :
    ∃ r, Dewarp img fov pfov pt = .ok r ∧
      r.roi = { cols := 2 * (min img.cols img.rows / 2), rows := 2 * (min img.cols img.rows / 2) } := by
  have hreg := Region_regionBounds (α := α) img.cols img.rows (by omega) (by omega)
  have hside : 0 < 2 * (min img.cols img.rows / 2) := by omega
  obtain ⟨maps, hm, hl1, hl2, hr1, hr2⟩ :=
    regionMaps_total (2 * (min img.cols img.rows / 2)) (2 * (min img.cols img.rows / 2))
      fov pfov pt hside
  have hne1 : maps.1 ≠ [] := by
    intro h0
    rw [h0] at hl1
    simp at hl1
    omega
  have hne2 : maps.2 ≠ [] := by
    intro h0
    rw [h0] at hl2
    simp at hl2
    omega
  have c1 := convertToMat_rect maps.1 _ hne1 hside hr1
  have c2 := convertToMat_rect maps.2 _ hne2 hside hr2
  unfold Dewarp
  rw [if_neg hf, if_neg hp]
  simp only [hreg, hm, c1, c2]
  exact ⟨_, rfl, rfl⟩

/-- On a source whose smaller side is 1, and with both angles in range,
`Dewarp` stops with an index out of range panic: the region is empty and
`remap` reads the length of the first row of an empty grid. -/
theorem Dewarp_panic (img : Mat) (fov pfov : α) (pt : ProjectionType)
    (hf : ¬ (fov ≤ 0 ∨ fov > 180)) (hp : ¬ (pfov ≤ 0 ∨ pfov ≥ 180))
    (hmin : min img.cols img.rows = 1) :
    Dewarp img fov pfov pt = .error .indexOutOfRange := by
  have hreg := Region_regionBounds (α := α) img.cols img.rows (by omega) (by omega)
  rw [hmin] at hreg
  unfold Dewarp
  rw [if_neg hf, if_neg hp]
  simp only [hreg]
  rfl

/-- What a result of `Dewarp` is made of: the maps of the region, whose side is
`2*(min(W,H)/2)`, flattened row by row. -/
theorem Dewarp_ok_inv (img : Mat) (fov pfov : α) (pt : ProjectionType)
    (hc : 0 < img.cols) (hr : 0 < img.rows) (r : Remapped α)
    (h : Dewarp img fov pfov pt = .ok r) :
    ∃ maps, regionMaps (2 * (min img.cols img.rows / 2)) (2 * (min img.cols img.rows / 2))
        fov pfov pt = .ok maps ∧
      r.xsMat.data = maps.1.flatten ∧ r.ysMat.data = maps.2.flatten ∧
      r.roi = { cols := 2 * (min img.cols img.rows / 2),
                rows := 2 * (min img.cols img.rows / 2) } := by
  have hreg := Region_regionBounds (α := α) img.cols img.rows hc hr
  unfold Dewarp at h
  split_ifs at h
  simp only [hreg] at h
  split at h
  · cases h
  · next maps hm =>
    split at h
    · cases h
    · next xsMat hx =>
      split at h
      · cases h
      · next ysMat hy =>
        cases h
        exact ⟨maps, hm, (convertToMat_ok_data _ _ hx).1, (convertToMat_ok_data _ _ hy).1, rfl⟩

end DewarpLemmas

/-! ## The `math` package over the reals -/

section RealMath

theorem pi_real : (GoMath.pi : ℝ) = Real.pi := rfl

theorem sqrt_real (x : ℝ) : GoMath.sqrt x = Real.sqrt x := rfl

theorem pow_real (x y : ℝ) : GoMath.pow x y = x ^ y := rfl

theorem hypot_real (x y : ℝ) : GoMath.hypot x y = Real.sqrt (x ^ 2 + y ^ 2) := rfl

theorem sin_real (x : ℝ) : GoMath.sin x = Real.sin x := rfl

theorem tan_real (x : ℝ) : GoMath.tan x = Real.tan x := rfl

theorem atan_real (x : ℝ) : GoMath.atan x = Real.arctan x := rfl

theorem hypot_eq_zero_iff (x y : ℝ) : GoMath.hypot x y = 0 ↔ x = 0 ∧ y = 0 := by
  rw [hypot_real, Real.sqrt_eq_zero (by positivity)]
  constructor
  · intro h
    constructor <;> nlinarith [sq_nonneg x, sq_nonneg y]
  · rintro ⟨rfl, rfl⟩
    norm_num

theorem radialOf_rd_eq_zero_iff (iv jv o xc yc : ℝ) :
    (radialOf iv jv o xc yc).rd = 0 ↔ iv = xc ∧ jv = yc := by
  simp only [radialOf, hypot_eq_zero_iff, sub_eq_zero]

theorem dimFOf_real (width height : Nat) :
    (dimFOf width height : ℝ) = Real.sqrt ((width : ℝ) ^ 2 + (height : ℝ) ^ 2) := by
  simp only [dimFOf, sqrt_real, pow_real, Real.rpow_two]

theorem dimFOf_nonneg (width height : Nat) : (0 : ℝ) ≤ dimFOf width height := by
  rw [dimFOf_real]
  exact Real.sqrt_nonneg _

theorem dimFOf_pos (width height : Nat) (hw : 1 ≤ width) : (0 : ℝ) < dimFOf width height := by
  rw [dimFOf_real]
  apply Real.sqrt_pos.mpr
  have h1 : (1 : ℝ) ≤ width := by exact_mod_cast hw
  have h2 : (0 : ℝ) ≤ (height : ℝ) ^ 2 := sq_nonneg _
  nlinarith

/-- The angle `pfov*pi/360` of an output field of view in range lies strictly
between 0 and `pi/2`. -/
theorem pfov_angle (pfov : ℝ) (h0 : 0 < pfov) (h1 : pfov < 180) :
    0 < pfov * Real.pi / 360 ∧ pfov * Real.pi / 360 < Real.pi / 2 := by
  have hpi := Real.pi_pos
  constructor
  · positivity
  · nlinarith

/-- The angle `fov*pi/360` of an input field of view in range lies in
`(0, pi/2]`. -/
theorem fov_angle (fov : ℝ) (h0 : 0 < fov) (h1 : fov ≤ 180) :
    0 < fov * Real.pi / 360 ∧ fov * Real.pi / 360 ≤ Real.pi / 2 := by
  have hpi := Real.pi_pos
  constructor
  · positivity
  · nlinarith

/-- The angle `fov*pi/720` of an input field of view in range lies in
`(0, pi/4]`. -/
theorem fov_half_angle (fov : ℝ) (h0 : 0 < fov) (h1 : fov ≤ 180) :
    0 < fov * Real.pi / 720 ∧ fov * Real.pi / 720 ≤ Real.pi / 4 := by
  have hpi := Real.pi_pos
  constructor
  · positivity
  · nlinarith

theorem tan_pfov_pos (pfov : ℝ) (h0 : 0 < pfov) (h1 : pfov < 180) :
    0 < Real.tan (pfov * Real.pi / 360) :=
  Real.tan_pos_of_pos_of_lt_pi_div_two (pfov_angle pfov h0 h1).1 (pfov_angle pfov h0 h1).2

theorem sin_fov_pos (fov : ℝ) (h0 : 0 < fov) (h1 : fov ≤ 180) :
    0 < Real.sin (fov * Real.pi / 360) := by
  have hpi := Real.pi_pos
  apply Real.sin_pos_of_pos_of_lt_pi (fov_angle fov h0 h1).1
  have := (fov_angle fov h0 h1).2
  linarith

theorem sin_fov_half_pos (fov : ℝ) (h0 : 0 < fov) (h1 : fov ≤ 180) :
    0 < Real.sin (fov * Real.pi / 720) := by
  have hpi := Real.pi_pos
  apply Real.sin_pos_of_pos_of_lt_pi (fov_half_angle fov h0 h1).1
  have := (fov_half_angle fov h0 h1).2
  linarith

theorem tan_fov_half_pos (fov : ℝ) (h0 : 0 < fov) (h1 : fov ≤ 180) :
    0 < Real.tan (fov * Real.pi / 720) := by
  have hpi := Real.pi_pos
  apply Real.tan_pos_of_pos_of_lt_pi_div_two (fov_half_angle fov h0 h1).1
  have := (fov_half_angle fov h0 h1).2
  linarith

theorem ofocOf_nonneg (width height : Nat) (pfov : ℝ) (h0 : 0 < pfov) (h1 : pfov < 180) :
    (0 : ℝ) ≤ ofocOf (dimFOf width height) pfov := by
  have ht := tan_pfov_pos pfov h0 h1
  simp only [ofocOf, tan_real, pi_real]
  exact div_nonneg (dimFOf_nonneg width height) (by positivity)

theorem ofocOf_pos (width height : Nat) (hw : 1 ≤ width) (pfov : ℝ) (h0 : 0 < pfov)
    (h1 : pfov < 180) : (0 : ℝ) < ofocOf (dimFOf width height) pfov := by
  have ht := tan_pfov_pos pfov h0 h1
  simp only [ofocOf, tan_real, pi_real]
  exact div_pos (dimFOf_pos width height hw) (by positivity)

theorem ofocinvOf_nonneg (width height : Nat) (pfov : ℝ) (h0 : 0 < pfov) (h1 : pfov < 180) :
    (0 : ℝ) ≤ ofocinvOf (dimFOf width height) pfov := by
  simp only [ofocinvOf]
  exact div_nonneg zero_le_one (ofocOf_nonneg width height pfov h0 h1)

/-- The angle `atan x` of a non-negative `x` lies in `[0, pi/2)`. -/
theorem arctan_range (x : ℝ) (hx : 0 ≤ x) : 0 ≤ Real.arctan x ∧ Real.arctan x < Real.pi / 2 := by
  refine ⟨?_, Real.arctan_lt_pi_div_two x⟩
  have := Real.arctan_strictMono.monotone hx
  rwa [Real.arctan_zero] at this

theorem tanDefined_of_abs_lt (x : ℝ) (h1 : -(Real.pi / 2) < x) (h2 : x < Real.pi / 2) :
    TanDefined x := by
  intro k hk
  have hc : 0 < Real.cos x := Real.cos_pos_of_mem_Ioo ⟨h1, h2⟩
  have : Real.cos x = 0 := Real.cos_eq_zero_iff.mpr ⟨k, hk⟩
  linarith

theorem ifocOf_nonneg (pt : ProjectionType) (dim fov : ℝ) (hdim : 0 ≤ dim) (h0 : 0 < fov)
    (h1 : fov ≤ 180) : 0 ≤ ifocOf pt dim fov := by
  have hpi := Real.pi_pos
  have h3 := sin_fov_half_pos fov h0 h1
  have h4 := sin_fov_pos fov h0 h1
  have h5 := tan_fov_half_pos fov h0 h1
  unfold ifocOf
  simp only [tan_real, sin_real, pi_real]
  split_ifs <;> positivity

/-- Each of the four functions `f` of the projection model is monotone on
`[0, pi/2)`, so `rrOf` is monotone in the angle when `ifoc` is not negative. -/
theorem rrOf_mono (pt : ProjectionType) (ifoc a b : ℝ) (hifoc : 0 ≤ ifoc) (ha : 0 ≤ a)
    (hab : a ≤ b) (hb : b < Real.pi / 2) : rrOf pt ifoc a ≤ rrOf pt ifoc b := by
  have hpi := Real.pi_pos
  unfold rrOf
  simp only [tan_real, sin_real]
  split_ifs
  · exact mul_le_mul_of_nonneg_left hab hifoc
  · apply mul_le_mul_of_nonneg_left _ hifoc
    exact Real.sin_le_sin_of_le_of_le_pi_div_two (by linarith) (by linarith) (by linarith)
  · apply mul_le_mul_of_nonneg_left _ hifoc
    exact Real.sin_le_sin_of_le_of_le_pi_div_two (by linarith) (by linarith) hab
  · apply mul_le_mul_of_nonneg_left _ hifoc
    rcases hab.eq_or_lt with h | h
    · rw [h]
    · exact (Real.tan_lt_tan_of_lt_of_lt_pi_div_two (by linarith) (by linarith)
        (by linarith)).le
  · exact le_rfl

theorem hypot_nonneg (x y : ℝ) : (0 : ℝ) ≤ GoMath.hypot x y := by
  rw [hypot_real]
  exact Real.sqrt_nonneg _

theorem ifocOf_pos (pt : ProjectionType)
    (hpt : pt = Linear ∨ pt = EqualArea ∨ pt = Orthographic ∨ pt = Stereographic)
    (dim fov : ℝ) (hdim : 0 < dim) (h0 : 0 < fov) (h1 : fov ≤ 180) : 0 < ifocOf pt dim fov := by
  have hpi := Real.pi_pos
  have h3 := sin_fov_half_pos fov h0 h1
  have h4 := sin_fov_pos fov h0 h1
  have h5 := tan_fov_half_pos fov h0 h1
  have n1 : EqualArea ≠ Linear := by decide
  have n2 : Orthographic ≠ Linear := by decide
  have n3 : Orthographic ≠ EqualArea := by decide
  have n4 : Stereographic ≠ Linear := by decide
  have n5 : Stereographic ≠ EqualArea := by decide
  have n6 : Stereographic ≠ Orthographic := by decide
  rcases hpt with h | h | h | h <;> subst h
  · simp only [ifocOf, if_true, pi_real]
    positivity
  · simp only [ifocOf, if_neg n1, if_true, pi_real, sin_real]
    positivity
  · simp only [ifocOf, if_neg n2, if_neg n3, if_true, pi_real, sin_real]
    positivity
  · simp only [ifocOf, if_neg n4, if_neg n5, if_neg n6, if_true, pi_real, tan_real]
    positivity

/-- Each of the four functions `f` of the projection model is positive on
`(0, pi/2)`. -/
theorem rrOf_pos (pt : ProjectionType)
    (hpt : pt = Linear ∨ pt = EqualArea ∨ pt = Orthographic ∨ pt = Stereographic)
    (ifoc a : ℝ) (hifoc : 0 < ifoc) (ha : 0 < a) (hb : a < Real.pi / 2) :
    0 < rrOf pt ifoc a := by
  have hpi := Real.pi_pos
  have n1 : EqualArea ≠ Linear := by decide
  have n2 : Orthographic ≠ Linear := by decide
  have n3 : Orthographic ≠ EqualArea := by decide
  have n4 : Stereographic ≠ Linear := by decide
  have n5 : Stereographic ≠ EqualArea := by decide
  have n6 : Stereographic ≠ Orthographic := by decide
  rcases hpt with h | h | h | h <;> subst h
  · simp only [rrOf, if_true]
    exact mul_pos hifoc ha
  · simp only [rrOf, if_neg n1, if_true, sin_real]
    exact mul_pos hifoc (Real.sin_pos_of_pos_of_lt_pi (by linarith) (by linarith))
  · simp only [rrOf, if_neg n2, if_neg n3, if_true, sin_real]
    exact mul_pos hifoc (Real.sin_pos_of_pos_of_lt_pi ha (by linarith))
  · simp only [rrOf, if_neg n4, if_neg n5, if_neg n6, if_true, tan_real]
    exact mul_pos hifoc (Real.tan_pos_of_pos_of_lt_pi_div_two (by linarith) (by linarith))

/-- At a pixel with `rd != 0`, for one of the four kinds, `fov` in range,
`ofocinv > 0` and `dim > 0`, the factor `rr/rd` is positive. -/
theorem scale_pos (pt : ProjectionType)
    (hpt : pt = Linear ∨ pt = EqualArea ∨ pt = Orthographic ∨ pt = Stereographic)
    (dim fov ofocinv : ℝ) (hdim : 0 < dim) (h0 : 0 < fov) (h1 : fov ≤ 180) (ho : 0 < ofocinv)
    (iv jv xc yc : ℝ) (hrd : (radialOf iv jv ofocinv xc yc).rd ≠ 0) :
    0 < rrOf pt (ifocOf pt dim fov) (radialOf iv jv ofocinv xc yc).phiang /
      (radialOf iv jv ofocinv xc yc).rd := by
  have hrd0 : 0 ≤ (radialOf iv jv ofocinv xc yc).rd := hypot_nonneg _ _
  have hrdpos : 0 < (radialOf iv jv ofocinv xc yc).rd := lt_of_le_of_ne hrd0 (Ne.symm hrd)
  have hphi : (radialOf iv jv ofocinv xc yc).phiang =
      Real.arctan (ofocinv * (radialOf iv jv ofocinv xc yc).rd) := rfl
  have harg : 0 < ofocinv * (radialOf iv jv ofocinv xc yc).rd := mul_pos ho hrdpos
  have hphipos : 0 < (radialOf iv jv ofocinv xc yc).phiang := by
    rw [hphi]
    have := Real.arctan_strictMono harg
    rwa [Real.arctan_zero] at this
  have hphilt : (radialOf iv jv ofocinv xc yc).phiang < Real.pi / 2 := by
    rw [hphi]
    exact Real.arctan_lt_pi_div_two _
  exact div_pos (rrOf_pos pt hpt _ _ (ifocOf_pos pt hpt dim fov hdim h0 h1) hphipos hphilt)
    hrdpos

theorem hypot_comm (x y : ℝ) : (GoMath.hypot x y : ℝ) = GoMath.hypot y x := by
  rw [hypot_real, hypot_real, add_comm]

/-- The center of a region of even side is no integer. -/
theorem half_center_ne_int (k : Nat) (z : ℤ) :
    (((((2 * k : Nat) : Int) - 1 : Int) : ℝ) / 2) ≠ (z : ℝ) := by
  intro h
  have h2 : ((((2 * k : Nat) : Int) - 1 : Int) : ℝ) = ((2 * z : Int) : ℝ) := by
    push_cast
    push_cast at h
    linarith
  have h3 : (((2 * k : Nat) : Int) - 1 : Int) = 2 * z := by exact_mod_cast h2
  omega

end RealMath

/-! ## The corner pixel of a region of 4 columns and 4 rows -/

section Corner

theorem arctan_poly_lower (x : ℝ) (hx : 0 ≤ x) :
    x - x ^ 3 / 3 + x ^ 5 / 5 - x ^ 7 / 7 ≤ Real.arctan x := by
  have hd : ∀ t : ℝ, HasDerivAt
      (fun t : ℝ => Real.arctan t - (t - t ^ 3 / 3 + t ^ 5 / 5 - t ^ 7 / 7))
      (1 / (1 + t ^ 2) - (1 - t ^ 2 + t ^ 4 - t ^ 6)) t := by
    intro t
    have h2 : HasDerivAt (fun t : ℝ => t - t ^ 3 / 3 + t ^ 5 / 5 - t ^ 7 / 7)
        (1 - t ^ 2 + t ^ 4 - t ^ 6) t := by
      have h := (((hasDerivAt_id t).sub ((hasDerivAt_pow 3 t).div_const 3)).add
        ((hasDerivAt_pow 5 t).div_const 5)).sub ((hasDerivAt_pow 7 t).div_const 7)
      convert h using 1
      simp only [Nat.cast_ofNat]
      ring
    exact (Real.hasDerivAt_arctan t).sub h2
  have hmono : Monotone (fun t : ℝ => Real.arctan t - (t - t ^ 3 / 3 + t ^ 5 / 5 - t ^ 7 / 7)) := by
    apply monotone_of_deriv_nonneg (fun t => (hd t).differentiableAt)
    intro t
    rw [(hd t).deriv]
    have h1 : (0 : ℝ) < 1 + t ^ 2 := by positivity
    have : 1 / (1 + t ^ 2) - (1 - t ^ 2 + t ^ 4 - t ^ 6) = t ^ 8 / (1 + t ^ 2) := by
      field_simp
      ring
    rw [this]
    positivity
  have h := hmono hx
  simp only [Real.arctan_zero] at h
  norm_num at h
  linarith

theorem arctan_poly_upper (x : ℝ) (hx : 0 ≤ x) :
    Real.arctan x ≤ x - x ^ 3 / 3 + x ^ 5 / 5 := by
  have hd : ∀ t : ℝ, HasDerivAt
      (fun t : ℝ => (t - t ^ 3 / 3 + t ^ 5 / 5) - Real.arctan t)
      ((1 - t ^ 2 + t ^ 4) - 1 / (1 + t ^ 2)) t := by
    intro t
    have h2 : HasDerivAt (fun t : ℝ => t - t ^ 3 / 3 + t ^ 5 / 5)
        (1 - t ^ 2 + t ^ 4) t := by
      have h := ((hasDerivAt_id t).sub ((hasDerivAt_pow 3 t).div_const 3)).add
        ((hasDerivAt_pow 5 t).div_const 5)
      convert h using 1
      simp only [Nat.cast_ofNat]
      ring
    exact h2.sub (Real.hasDerivAt_arctan t)
  have hmono : Monotone (fun t : ℝ => (t - t ^ 3 / 3 + t ^ 5 / 5) - Real.arctan t) := by
    apply monotone_of_deriv_nonneg (fun t => (hd t).differentiableAt)
    intro t
    rw [(hd t).deriv]
    have h1 : (0 : ℝ) < 1 + t ^ 2 := by positivity
    have : (1 - t ^ 2 + t ^ 4) - 1 / (1 + t ^ 2) = t ^ 6 / (1 + t ^ 2) := by
      field_simp
      ring
    rw [this]
    positivity
  have h := hmono hx
  simp only [Real.arctan_zero] at h
  norm_num at h
  linarith


theorem sqrt_three_sq : Real.sqrt 3 * Real.sqrt 3 = 3 := Real.mul_self_sqrt (by norm_num)

theorem sqrt_two_sq : Real.sqrt 2 * Real.sqrt 2 = 2 := Real.mul_self_sqrt (by norm_num)

theorem sqrt_three_bounds : 1.7320508 < Real.sqrt 3 ∧ Real.sqrt 3 < 1.7320509 := by
  constructor
  · rw [Real.lt_sqrt (by norm_num)]
    norm_num
  · rw [Real.sqrt_lt' (by norm_num)]
    norm_num

theorem sqrt_thirty_two : Real.sqrt 32 = 4 * Real.sqrt 2 := by
  have h : (32 : ℝ) = (4 * Real.sqrt 2) ^ 2 := by
    nlinarith [sqrt_two_sq]
  rw [h, Real.sqrt_sq (by positivity)]

theorem arctan_sqrt_three : Real.arctan (Real.sqrt 3) = Real.pi / 3 := by
  have hpi := Real.pi_pos
  rw [← Real.tan_pi_div_three, Real.arctan_tan (by linarith) (by linarith)]

/-- The angle of the corner pixel: `atan(3*sqrt(3)/4) = pi/3 - atan(sqrt(3)/13)`. -/
theorem arctan_corner :
    Real.arctan (3 * Real.sqrt 3 / 4) = Real.pi / 3 - Real.arctan (Real.sqrt 3 / 13) := by
  have h3 := sqrt_three_sq
  have hxy : 3 * Real.sqrt 3 / 4 * (Real.sqrt 3 / 13) < 1 := by nlinarith
  have h := Real.arctan_add hxy
  have hq : (3 * Real.sqrt 3 / 4 + Real.sqrt 3 / 13) /
      (1 - 3 * Real.sqrt 3 / 4 * (Real.sqrt 3 / 13)) = Real.sqrt 3 := by
    have hden : 1 - 3 * Real.sqrt 3 / 4 * (Real.sqrt 3 / 13) = 43 / 52 := by nlinarith
    rw [hden]
    field_simp
    ring
  rw [hq, arctan_sqrt_three] at h
  linarith

theorem dimFOf_four : (dimFOf 4 4 : ℝ) = 4 * Real.sqrt 2 := by
  rw [dimFOf_real, ← sqrt_thirty_two]
  norm_num

theorem ofocinvOf_four : ofocinvOf (dimFOf 4 4 : ℝ) 120 = Real.sqrt 6 / 4 := by
  have h2 := sqrt_two_sq
  have h2pos : 0 < Real.sqrt 2 := Real.sqrt_pos.mpr (by norm_num)
  have h6 : Real.sqrt 6 = Real.sqrt 2 * Real.sqrt 3 := by
    rw [← Real.sqrt_mul (by norm_num)]
    norm_num
  have hang : (120 : ℝ) * Real.pi / 360 = Real.pi / 3 := by ring
  rw [dimFOf_four]
  simp only [ofocinvOf, ofocOf, tan_real, pi_real]
  rw [hang, Real.tan_pi_div_three, h6]
  field_simp
  linear_combination (-(4 * Real.sqrt 3)) * h2

/-- The entries of the corner pixel (row 0, column 0) of a region of 4 columns
and 4 rows with `pfov = 120`: `xd = yd = -3/2`, `rd = (3/2)*sqrt(2)` and
`phiang = atan(3*sqrt(3)/4)`. -/
theorem corner_radial :
    radialOf ((0 : Nat) : ℝ) ((0 : Nat) : ℝ) (ofocinvOf (dimFOf 4 4) 120)
      (((((4 : Nat) : Int) - 1 : Int) : ℝ) / 2) (((((4 : Nat) : Int) - 1 : Int) : ℝ) / 2) =
      { xd := -(3 / 2), yd := -(3 / 2), rd := 3 / 2 * Real.sqrt 2,
        phiang := Real.arctan (3 * Real.sqrt 3 / 4) } := by
  have h2 := sqrt_two_sq
  have h2pos : 0 < Real.sqrt 2 := Real.sqrt_pos.mpr (by norm_num)
  have h6 : Real.sqrt 6 = Real.sqrt 2 * Real.sqrt 3 := by
    rw [← Real.sqrt_mul (by norm_num)]
    norm_num
  have hc : (((((4 : Nat) : Int) - 1 : Int) : ℝ) / 2) = 3 / 2 := by norm_num
  have hrd : (GoMath.hypot (-(3 / 2) : ℝ) (-(3 / 2)) : ℝ) = 3 / 2 * Real.sqrt 2 := by
    rw [hypot_real]
    have h : ((-(3 / 2) : ℝ)) ^ 2 + (-(3 / 2)) ^ 2 = (3 / 2 * Real.sqrt 2) ^ 2 := by
      nlinarith
    rw [h, Real.sqrt_sq (by positivity)]
  have hx : (((0 : Nat) : ℝ) - 3 / 2) = -(3 / 2) := by norm_num
  rw [hc, ofocinvOf_four]
  simp only [radialOf, hx, hrd, atan_real, Radial.mk.injEq, true_and]
  congr 1
  rw [h6]
  linear_combination (3 / 8 * Real.sqrt 3) * h2

/-- The entries of the two maps at the corner pixel of a region of 4 columns
and 4 rows with `fov = 180` and `pfov = 120`, for any projection type. -/
theorem corner_entry (pt : ProjectionType) :
    ∃ maps, regionMaps 4 4 (180 : ℝ) 120 pt = .ok maps ∧
      at2 maps.1 0 0 = .ok (3 / 2 - rrOf pt (ifocOf pt (4 * Real.sqrt 2) 180)
        (Real.arctan (3 * Real.sqrt 3 / 4)) / Real.sqrt 2) ∧
      at2 maps.2 0 0 = .ok (3 / 2 - rrOf pt (ifocOf pt (4 * Real.sqrt 2) 180)
        (Real.arctan (3 * Real.sqrt 3 / 4)) / Real.sqrt 2) := by
  have h2pos : 0 < Real.sqrt 2 := Real.sqrt_pos.mpr (by norm_num)
  have hc : (((((4 : Nat) : Int) - 1 : Int) : ℝ) / 2) = 3 / 2 := by norm_num
  obtain ⟨maps, hm, _⟩ := regionMaps_total 4 4 (180 : ℝ) 120 pt (by decide)
  have hm2 := hm
  unfold regionMaps at hm2
  obtain ⟨e1, e2⟩ := remap_meshgrid_entry 4 4 _ _ _ _ _ pt maps hm2 0 0 (by decide) (by decide)
  rw [corner_radial, dimFOf_four, hc] at e1 e2
  have hne : (3 / 2 * Real.sqrt 2 : ℝ) ≠ 0 := by positivity
  simp only [xsAt, ysAt, ne_eq, hne, not_false_eq_true, if_true] at e1 e2
  refine ⟨maps, hm, ?_, ?_⟩
  · rw [e1]
    congr 1
    field_simp
    ring
  · rw [e2]
    congr 1
    field_simp
    ring

theorem corner_rr_linear (a : ℝ) :
    rrOf Linear (ifocOf Linear (4 * Real.sqrt 2) 180) a / Real.sqrt 2 = 4 / Real.pi * a := by
  have h2pos : 0 < Real.sqrt 2 := Real.sqrt_pos.mpr (by norm_num)
  have hpi := Real.pi_pos
  simp only [rrOf, ifocOf, if_true, pi_real]
  field_simp
  ring

/-- Bounds of the value `3/2 - (4/pi)*atan(3*sqrt(3)/4)`. -/
theorem corner_linear_bounds :
    0.335312 < 3 / 2 - 4 / Real.pi * Real.arctan (3 * Real.sqrt 3 / 4) ∧
    3 / 2 - 4 / Real.pi * Real.arctan (3 * Real.sqrt 3 / 4) < 0.335314 := by
  have hpi := Real.pi_pos
  have hpl := Real.pi_gt_d6
  have hpu := Real.pi_lt_d6
  obtain ⟨hbl, hbu⟩ := sqrt_three_bounds
  have h3 := sqrt_three_sq
  have hx0 : (0 : ℝ) ≤ Real.sqrt 3 / 13 := by positivity
  have hx2 : (Real.sqrt 3 / 13) ^ 2 = 3 / 169 := by nlinarith
  have hx3 : (Real.sqrt 3 / 13) ^ 3 = Real.sqrt 3 / 13 * (3 / 169) := by
    rw [← hx2]
    ring
  have hx5 : (Real.sqrt 3 / 13) ^ 5 = Real.sqrt 3 / 13 * (3 / 169) ^ 2 := by
    rw [← hx2]
    ring
  have hx7 : (Real.sqrt 3 / 13) ^ 7 = Real.sqrt 3 / 13 * (3 / 169) ^ 3 := by
    rw [← hx2]
    ring
  have hlo := arctan_poly_lower _ hx0
  have hhi := arctan_poly_upper _ hx0
  rw [hx3, hx5, hx7] at hlo
  rw [hx3, hx5] at hhi
  have hval : 3 / 2 - 4 / Real.pi * Real.arctan (3 * Real.sqrt 3 / 4) =
      1 / 6 + 4 * Real.arctan (Real.sqrt 3 / 13) / Real.pi := by
    rw [arctan_corner]
    field_simp
    ring
  rw [hval]
  constructor
  · have h : (0.335312 - 1 / 6) * Real.pi < 4 * Real.arctan (Real.sqrt 3 / 13) := by
      norm_num at hlo hpu hbl ⊢
      nlinarith
    have h2 : 0.335312 - 1 / 6 < 4 * Real.arctan (Real.sqrt 3 / 13) / Real.pi := by
      rw [lt_div_iff₀ hpi]
      exact h
    linarith
  · have h : 4 * Real.arctan (Real.sqrt 3 / 13) < (0.335314 - 1 / 6) * Real.pi := by
      norm_num at hhi hpl hbu ⊢
      nlinarith
    have h2 : 4 * Real.arctan (Real.sqrt 3 / 13) / Real.pi < 0.335314 - 1 / 6 := by
      rw [div_lt_iff₀ hpi]
      exact h
    linarith

theorem corner_rr_equalArea (a : ℝ) :
    rrOf EqualArea (ifocOf EqualArea (4 * Real.sqrt 2) 180) a / Real.sqrt 2 =
      2 * (Real.sqrt 2 * Real.sin (a / 2)) := by
  have h2 := sqrt_two_sq
  have h2pos : 0 < Real.sqrt 2 := Real.sqrt_pos.mpr (by norm_num)
  have n1 : EqualArea ≠ Linear := by decide
  have hang : (180 : ℝ) * Real.pi / 720 = Real.pi / 4 := by ring
  simp only [rrOf, ifocOf, if_neg n1, if_true, pi_real, sin_real]
  rw [hang, Real.sin_pi_div_four]
  field_simp
  linear_combination (-2 * Real.sin (a / 2)) * h2

theorem corner_rr_orthographic (a : ℝ) :
    rrOf Orthographic (ifocOf Orthographic (4 * Real.sqrt 2) 180) a / Real.sqrt 2 =
      2 * Real.sin a := by
  have h2pos : 0 < Real.sqrt 2 := Real.sqrt_pos.mpr (by norm_num)
  have n2 : Orthographic ≠ Linear := by decide
  have n3 : Orthographic ≠ EqualArea := by decide
  have hang : (180 : ℝ) * Real.pi / 360 = Real.pi / 2 := by ring
  simp only [rrOf, ifocOf, if_neg n2, if_neg n3, if_true, pi_real, sin_real]
  rw [hang, Real.sin_pi_div_two]
  field_simp
  ring

theorem corner_rr_stereographic (a : ℝ) :
    rrOf Stereographic (ifocOf Stereographic (4 * Real.sqrt 2) 180) a / Real.sqrt 2 =
      2 * Real.tan (a / 2) := by
  have h2pos : 0 < Real.sqrt 2 := Real.sqrt_pos.mpr (by norm_num)
  have n4 : Stereographic ≠ Linear := by decide
  have n5 : Stereographic ≠ EqualArea := by decide
  have n6 : Stereographic ≠ Orthographic := by decide
  have hang : (180 : ℝ) * Real.pi / 720 = Real.pi / 4 := by ring
  simp only [rrOf, ifocOf, if_neg n4, if_neg n5, if_neg n6, if_true, pi_real, tan_real]
  rw [hang, Real.tan_pi_div_four]
  field_simp
  ring

/-- The cosine of the angle of the corner pixel lies between 0.6 and 0.64. -/
theorem corner_cos_bounds :
    0.6 < Real.cos (Real.arctan (3 * Real.sqrt 3 / 4)) ∧
    Real.cos (Real.arctan (3 * Real.sqrt 3 / 4)) < 0.64 := by
  have h3 := sqrt_three_sq
  have hx : (1 : ℝ) + (3 * Real.sqrt 3 / 4) ^ 2 = 43 / 16 := by nlinarith
  rw [Real.cos_arctan, hx]
  have hs0 : 0 < Real.sqrt (43 / 16) := Real.sqrt_pos.mpr (by norm_num)
  have hs : Real.sqrt (43 / 16) * Real.sqrt (43 / 16) = 43 / 16 :=
    Real.mul_self_sqrt (by norm_num)
  constructor
  · rw [lt_div_iff₀ hs0]
    nlinarith
  · rw [div_lt_iff₀ hs0]
    nlinarith

/-- Bounds of the four forward radii at the corner pixel, divided by
`sqrt(2)`: Stereographic below 1, Linear between 1.16 and 1.17, EqualArea
between 1.2 and 1.4, Orthographic above 1.4. -/
theorem corner_rr_bounds :
    2 * Real.tan (Real.arctan (3 * Real.sqrt 3 / 4) / 2) < 1 ∧
    1.16 < 4 / Real.pi * Real.arctan (3 * Real.sqrt 3 / 4) ∧
    4 / Real.pi * Real.arctan (3 * Real.sqrt 3 / 4) < 1.17 ∧
    1.2 < 2 * (Real.sqrt 2 * Real.sin (Real.arctan (3 * Real.sqrt 3 / 4) / 2)) ∧
    2 * (Real.sqrt 2 * Real.sin (Real.arctan (3 * Real.sqrt 3 / 4) / 2)) < 1.4 ∧
    1.4 < 2 * Real.sin (Real.arctan (3 * Real.sqrt 3 / 4)) := by
  have hpi := Real.pi_pos
  have h2 := sqrt_two_sq
  have h2pos : 0 < Real.sqrt 2 := Real.sqrt_pos.mpr (by norm_num)
  have h3 := sqrt_three_sq
  obtain ⟨hbl, hbu⟩ := sqrt_three_bounds
  obtain ⟨hcl, hcu⟩ := corner_cos_bounds
  obtain ⟨hvl, hvu⟩ := corner_linear_bounds
  have hθ0 : 0 < Real.arctan (3 * Real.sqrt 3 / 4) := by
    have := Real.arctan_strictMono (show (0 : ℝ) < 3 * Real.sqrt 3 / 4 by positivity)
    rwa [Real.arctan_zero] at this
  have hθ1 := Real.arctan_lt_pi_div_two (3 * Real.sqrt 3 / 4)
  refine ⟨?_, by linarith, by linarith, ?_, ?_, ?_⟩
  · have hadd : Real.arctan (1 / 2) + Real.arctan (1 / 2) = Real.arctan (4 / 3) := by
      rw [Real.arctan_add (by norm_num)]
      norm_num
    have hlt : Real.arctan (3 * Real.sqrt 3 / 4) < Real.arctan (4 / 3) :=
      Real.arctan_strictMono (by linarith)
    have hhalf : Real.arctan (3 * Real.sqrt 3 / 4) / 2 < Real.arctan (1 / 2) := by linarith
    have ht := Real.tan_lt_tan_of_lt_of_lt_pi_div_two (by linarith)
      (Real.arctan_lt_pi_div_two (1 / 2)) hhalf
    rw [Real.tan_arctan] at ht
    linarith
  · have hs0 : 0 < Real.sin (Real.arctan (3 * Real.sqrt 3 / 4) / 2) :=
      Real.sin_pos_of_pos_of_lt_pi (by linarith) (by linarith)
    have hsq := Real.sin_sq_eq_half_sub (Real.arctan (3 * Real.sqrt 3 / 4) / 2)
    rw [show 2 * (Real.arctan (3 * Real.sqrt 3 / 4) / 2) = Real.arctan (3 * Real.sqrt 3 / 4)
      by ring] at hsq
    have hprod : (Real.sqrt 2 * Real.sin (Real.arctan (3 * Real.sqrt 3 / 4) / 2)) ^ 2 =
        1 - Real.cos (Real.arctan (3 * Real.sqrt 3 / 4)) := by
      rw [mul_pow, hsq]
      nlinarith
    have hp0 : 0 < Real.sqrt 2 * Real.sin (Real.arctan (3 * Real.sqrt 3 / 4) / 2) :=
      mul_pos h2pos hs0
    nlinarith
  · have hs0 : 0 < Real.sin (Real.arctan (3 * Real.sqrt 3 / 4) / 2) :=
      Real.sin_pos_of_pos_of_lt_pi (by linarith) (by linarith)
    have hsq := Real.sin_sq_eq_half_sub (Real.arctan (3 * Real.sqrt 3 / 4) / 2)
    rw [show 2 * (Real.arctan (3 * Real.sqrt 3 / 4) / 2) = Real.arctan (3 * Real.sqrt 3 / 4)
      by ring] at hsq
    have hprod : (Real.sqrt 2 * Real.sin (Real.arctan (3 * Real.sqrt 3 / 4) / 2)) ^ 2 =
        1 - Real.cos (Real.arctan (3 * Real.sqrt 3 / 4)) := by
      rw [mul_pow, hsq]
      nlinarith
    have hp0 : 0 < Real.sqrt 2 * Real.sin (Real.arctan (3 * Real.sqrt 3 / 4) / 2) :=
      mul_pos h2pos hs0
    nlinarith
  · have hsin : Real.sin (Real.arctan (3 * Real.sqrt 3 / 4)) =
        3 * Real.sqrt 3 / 4 * Real.cos (Real.arctan (3 * Real.sqrt 3 / 4)) := by
      rw [Real.sin_arctan, Real.cos_arctan]
      ring
    rw [hsin]
    nlinarith [mul_pos (sub_pos.mpr hbl) (sub_pos.mpr hcl)]

end Corner

/-! ## The conversion to `float32` and bounds of the entries -/

section Float32Lemmas

theorem log_two_of_mem (x : ℝ) (h1 : 1 ≤ x) (h2 : x < 2) : Int.log 2 x = 0 := by
  apply le_antisymm
  · have : Int.log 2 x < 1 := by
      rw [← Int.lt_zpow_iff_log_lt (by norm_num) (by linarith)]
      simpa using h2
    omega
  · rw [← Int.zpow_le_iff_le_log (by norm_num) (by linarith)]
    simpa using h1

theorem toFloat32_near (x : ℝ) (h1 : 3 / 2 - 1 / 2 ^ 24 < x) (h2 : x ≤ 3 / 2) :
    toFloat32 x = .finite (3 / 2) := by
  have hx1 : (1 : ℝ) ≤ x := by
    have : (1 : ℝ) / 2 ^ 24 < 1 / 2 := by norm_num
    linarith
  have habs : |x| = x := abs_of_nonneg (by linarith)
  have hlog : Int.log 2 |x| = 0 := by
    rw [habs]
    exact log_two_of_mem x hx1 (by linarith)
  have hulp : ulpExp x = -23 := by
    simp only [ulpExp, hlog]
    decide
  have hnot : ¬ ((2 : ℝ) ^ 128 - 2 ^ 103 ≤ |x|) := by
    rw [habs, not_le]
    have : (2 : ℝ) < 2 ^ 128 - 2 ^ 103 := by norm_num
    linarith
  have hz : (2 : ℝ) ^ (-23 : ℤ) = 1 / 2 ^ 23 := by
    rw [zpow_neg, one_div]
    norm_cast
  have hy1 : (12582912 : ℝ) - 1 / 2 < x / (1 / 2 ^ 23) := by
    rw [lt_div_iff₀ (by positivity)]
    norm_num at h1 ⊢
    linarith
  have hy2 : x / (1 / 2 ^ 23) ≤ (12582912 : ℝ) := by
    rw [div_le_iff₀ (by positivity)]
    norm_num at h2 ⊢
    linarith
  have hround : roundEven (x / (1 / 2 ^ 23 : ℝ)) = 12582912 := by
    rcases hy2.eq_or_lt with heq | hlt
    · have hfl : Int.floor (x / (1 / 2 ^ 23 : ℝ)) = 12582912 := by
        rw [heq]
        exact Int.floor_intCast 12582912
      simp only [roundEven, hfl, heq]
      norm_num
    · have hfl : Int.floor (x / (1 / 2 ^ 23 : ℝ)) = 12582911 := by
        rw [Int.floor_eq_iff]
        constructor
        · push_cast
          linarith
        · push_cast
          linarith
      have hfr1 : ¬ (x / (1 / 2 ^ 23 : ℝ) - ((12582911 : ℤ) : ℝ) < 1 / 2) := by
        push_cast
        linarith
      have hfr2 : 1 / 2 < x / (1 / 2 ^ 23 : ℝ) - ((12582911 : ℤ) : ℝ) := by
        push_cast
        linarith
      simp only [roundEven, hfl, if_neg hfr1, if_pos hfr2]
      norm_num
  simp only [toFloat32, if_neg hnot, hulp, hz, hround]
  congr 1
  norm_num

theorem toFloat32_finite (x : ℝ) (h : |x| < 2 ^ 128 - 2 ^ 103) :
    ∃ y, toFloat32 x = .finite y := by
  simp only [toFloat32, if_neg (not_le.mpr h)]
  exact ⟨_, rfl⟩

theorem toFloat32_negInf (x : ℝ) (h : x ≤ -(2 ^ 128)) : toFloat32 x = .negInf := by
  have hneg : x < 0 := by
    have : (0 : ℝ) < 2 ^ 128 := by positivity
    linarith
  have habs : (2 : ℝ) ^ 128 - 2 ^ 103 ≤ |x| := by
    rw [abs_of_neg hneg]
    have : (0 : ℝ) < 2 ^ 103 := by positivity
    linarith
  simp only [toFloat32, if_pos habs, if_neg (not_lt.mpr hneg.le)]

theorem at2_map_ok {β γ : Type} (f : β → γ) (g : List (List β)) (row col : Nat) (v : β)
    (h : at2 g row col = .ok v) :
    at2 (g.map fun r => r.map f) row col = (.ok (f v) : Except (Fault γ) γ) := by
  unfold at2 at h
  split at h
  · cases h
  · next r hr =>
    split at h
    · cases h
    · next w hw =>
      cases h
      exact at2_map f g row col r v hr hw

theorem regionMapsFloat32_ok (width height : Nat) (fov pfov : ℝ) (pt : ProjectionType)
    (maps : List (List ℝ) × List (List ℝ))
    (h : regionMaps width height fov pfov pt = .ok maps) :
    regionMapsFloat32 width height fov pfov pt =
      .ok (maps.1.map fun r => r.map toFloat32, maps.2.map fun r => r.map toFloat32) := by
  unfold regionMaps at h
  unfold regionMapsFloat32 remapFloat32
  simp only [h]

/-! ### Bounds of the entries -/

theorem sin_le_tan_of_mem (x : ℝ) (h0 : 0 ≤ x) (h1 : x < Real.pi / 2) :
    Real.sin x ≤ Real.tan x := by
  have hpi := Real.pi_pos
  have hc : 0 < Real.cos x := Real.cos_pos_of_mem_Ioo ⟨by linarith, h1⟩
  have hs : 0 ≤ Real.sin x := Real.sin_nonneg_of_nonneg_of_le_pi h0 (by linarith)
  rw [Real.tan_eq_sin_div_cos, le_div_iff₀ hc]
  nlinarith [Real.cos_le_one x]

/-- The forward radius lies between 0 and `180*dim/fov`, for every projection
type. -/
theorem rrOf_bounds (pt : ProjectionType) (dim fov a : ℝ) (hdim : 0 ≤ dim) (h0 : 0 < fov)
    (h1 : fov ≤ 180) (ha0 : 0 ≤ a) (ha1 : a < Real.pi / 2) :
    0 ≤ rrOf pt (ifocOf pt dim fov) a ∧ rrOf pt (ifocOf pt dim fov) a ≤ 180 * dim / fov := by
  have hpi := Real.pi_pos
  have hB : 0 ≤ 180 * dim / fov := by positivity
  have hif := ifocOf_nonneg pt dim fov hdim h0 h1
  have hhalf := fov_half_angle fov h0 h1
  have hfull := fov_angle fov h0 h1
  have hs720 : fov / 360 ≤ Real.sin (fov * Real.pi / 720) := by
    have h := Real.mul_le_sin hhalf.1.le (by linarith)
    have e : 2 / Real.pi * (fov * Real.pi / 720) = fov / 360 := by
      field_simp
      ring
    rwa [e] at h
  have hs360 : fov / 180 ≤ Real.sin (fov * Real.pi / 360) := by
    have h := Real.mul_le_sin hfull.1.le hfull.2
    have e : 2 / Real.pi * (fov * Real.pi / 360) = fov / 180 := by
      field_simp
      ring
    rwa [e] at h
  have ht720 : fov / 360 ≤ Real.tan (fov * Real.pi / 720) :=
    hs720.trans (sin_le_tan_of_mem _ hhalf.1.le (by linarith))
  have hmul : ∀ A B : ℝ, 0 ≤ A → A ≤ 180 * dim / fov → 0 ≤ B → B ≤ 1 →
      0 ≤ A * B ∧ A * B ≤ 180 * dim / fov := by
    intro A B hA hA2 hB0 hB1
    exact ⟨mul_nonneg hA hB0, (mul_le_of_le_one_right hA hB1).trans hA2⟩
  have hdiv : ∀ s : ℝ, fov / 360 ≤ s → dim / (2 * s) ≤ 180 * dim / fov := by
    intro s hs
    have hs0 : 0 < s := lt_of_lt_of_le (by positivity) hs
    rw [div_le_div_iff₀ (by positivity) h0]
    have : fov ≤ 360 * s := by
      have := (div_le_iff₀ (by norm_num : (0 : ℝ) < 360)).mp hs
      linarith
    nlinarith
  unfold rrOf
  split_ifs with c1 c2 c3 c4
  · subst c1
    have e : ifocOf Linear dim fov = dim * 180 / (fov * Real.pi) := by
      simp only [ifocOf, if_true, pi_real]
    rw [e]
    have hA : 0 ≤ dim * 180 / (fov * Real.pi) := by positivity
    refine ⟨mul_nonneg hA ha0, ?_⟩
    have h2 : dim * 180 / (fov * Real.pi) * a ≤ dim * 180 / (fov * Real.pi) * (Real.pi / 2) :=
      mul_le_mul_of_nonneg_left ha1.le hA
    have e2 : dim * 180 / (fov * Real.pi) * (Real.pi / 2) = 90 * dim / fov := by
      field_simp
      ring
    have h3 : 90 * dim / fov ≤ 180 * dim / fov := by
      apply div_le_div_of_nonneg_right _ h0.le
      linarith
    linarith
  · subst c2
    have n1 : EqualArea ≠ Linear := by decide
    have e : ifocOf EqualArea dim fov = dim / (2 * Real.sin (fov * Real.pi / 720)) := by
      simp only [ifocOf, if_neg n1, if_true, pi_real, sin_real]
    have hif2 := hif
    rw [e] at hif2 ⊢
    rw [sin_real]
    exact hmul _ _ hif2 (hdiv _ hs720)
      (Real.sin_nonneg_of_nonneg_of_le_pi (by linarith) (by linarith)) (Real.sin_le_one _)
  · subst c3
    have n2 : Orthographic ≠ Linear := by decide
    have n3 : Orthographic ≠ EqualArea := by decide
    have e : ifocOf Orthographic dim fov = dim / (2 * Real.sin (fov * Real.pi / 360)) := by
      simp only [ifocOf, if_neg n2, if_neg n3, if_true, pi_real, sin_real]
    have hif2 := hif
    rw [e] at hif2 ⊢
    rw [sin_real]
    exact hmul _ _ hif2 (hdiv _ (by linarith))
      (Real.sin_nonneg_of_nonneg_of_le_pi ha0 (by linarith)) (Real.sin_le_one _)
  · subst c4
    have n4 : Stereographic ≠ Linear := by decide
    have n5 : Stereographic ≠ EqualArea := by decide
    have n6 : Stereographic ≠ Orthographic := by decide
    have e : ifocOf Stereographic dim fov = dim / (2 * Real.tan (fov * Real.pi / 720)) := by
      simp only [ifocOf, if_neg n4, if_neg n5, if_neg n6, if_true, pi_real, tan_real]
    have hif2 := hif
    rw [e] at hif2 ⊢
    rw [tan_real]
    have ht1 : Real.tan (a / 2) ≤ 1 := by
      rw [← Real.tan_pi_div_four]
      rcases (show a / 2 ≤ Real.pi / 4 by linarith).eq_or_lt with h | h
      · rw [h]
      · exact (Real.tan_lt_tan_of_lt_of_lt_pi_div_two (by linarith) (by linarith) h).le
    exact hmul _ _ hif2 (hdiv _ ht720)
      (Real.tan_nonneg_of_nonneg_of_le_pi_div_two (by linarith) (by linarith)) ht1
  · exact ⟨le_rfl, hB⟩

theorem radialOf_abs_le (iv jv o xc yc : ℝ) :
    |(radialOf iv jv o xc yc).xd| ≤ (radialOf iv jv o xc yc).rd ∧
    |(radialOf iv jv o xc yc).yd| ≤ (radialOf iv jv o xc yc).rd := by
  simp only [radialOf, hypot_real]
  constructor
  · apply Real.abs_le_sqrt
    nlinarith [sq_nonneg (jv - yc)]
  · apply Real.abs_le_sqrt
    nlinarith [sq_nonneg (iv - xc)]

/-- The absolute value of an entry is at most the center coordinate plus a
bound of the forward radius. -/
theorem entry_abs_le (c d rd rr B : ℝ) (hc : 0 ≤ c) (hrr0 : 0 ≤ rr) (hrr : rr ≤ B)
    (hd : |d| ≤ rd) : |if rd ≠ 0 then rr / rd * d + c else 0| ≤ c + B := by
  have hrd0 : 0 ≤ rd := (abs_nonneg d).trans hd
  split_ifs with h
  · have hrdpos : 0 < rd := lt_of_le_of_ne hrd0 (Ne.symm h)
    have h1 : |rr / rd * d| ≤ rr := by
      rw [abs_mul, abs_of_nonneg (div_nonneg hrr0 hrd0), div_mul_eq_mul_div,
        div_le_iff₀ hrdpos]
      exact mul_le_mul_of_nonneg_left hd hrr0
    calc |rr / rd * d + c| ≤ |rr / rd * d| + |c| := abs_add _ _
      _ ≤ rr + c := by rw [abs_of_nonneg hc]; linarith
      _ ≤ c + B := by linarith
  · rw [abs_zero]
    linarith

/-! ### The corner pixel for any angles -/

theorem corner_radial_any (o : ℝ) :
    radialOf ((0 : Nat) : ℝ) ((0 : Nat) : ℝ) o
      (((((4 : Nat) : Int) - 1 : Int) : ℝ) / 2) (((((4 : Nat) : Int) - 1 : Int) : ℝ) / 2) =
      { xd := -(3 / 2), yd := -(3 / 2), rd := 3 / 2 * Real.sqrt 2,
        phiang := Real.arctan (o * (3 / 2 * Real.sqrt 2)) } := by
  have h2 := sqrt_two_sq
  have hc : (((((4 : Nat) : Int) - 1 : Int) : ℝ) / 2) = 3 / 2 := by norm_num
  have hrd : (GoMath.hypot (-(3 / 2) : ℝ) (-(3 / 2)) : ℝ) = 3 / 2 * Real.sqrt 2 := by
    rw [hypot_real]
    have h : ((-(3 / 2) : ℝ)) ^ 2 + (-(3 / 2)) ^ 2 = (3 / 2 * Real.sqrt 2) ^ 2 := by
      nlinarith
    rw [h, Real.sqrt_sq (by positivity)]
  have hx : (((0 : Nat) : ℝ) - 3 / 2) = -(3 / 2) := by norm_num
  rw [hc]
  simp only [radialOf, hx, hrd, atan_real]

/-- The entries of the two maps at the corner pixel of a region of 4 columns
and 4 rows, for any angles and projection type. -/
theorem corner_entry_any (fov pfov : ℝ) (pt : ProjectionType) :
    ∃ maps, regionMaps 4 4 fov pfov pt = .ok maps ∧
      at2 maps.1 0 0 = .ok (3 / 2 - rrOf pt (ifocOf pt (4 * Real.sqrt 2) fov)
        (Real.arctan (ofocinvOf (4 * Real.sqrt 2) pfov * (3 / 2 * Real.sqrt 2))) /
          Real.sqrt 2) ∧
      at2 maps.2 0 0 = .ok (3 / 2 - rrOf pt (ifocOf pt (4 * Real.sqrt 2) fov)
        (Real.arctan (ofocinvOf (4 * Real.sqrt 2) pfov * (3 / 2 * Real.sqrt 2))) /
          Real.sqrt 2) := by
  have h2pos : 0 < Real.sqrt 2 := Real.sqrt_pos.mpr (by norm_num)
  have hc : (((((4 : Nat) : Int) - 1 : Int) : ℝ) / 2) = 3 / 2 := by norm_num
  obtain ⟨maps, hm, _⟩ := regionMaps_total 4 4 fov pfov pt (by decide)
  have hm2 := hm
  unfold regionMaps at hm2
  obtain ⟨e1, e2⟩ := remap_meshgrid_entry 4 4 _ _ _ _ _ pt maps hm2 0 0 (by decide) (by decide)
  rw [corner_radial_any, dimFOf_four, hc] at e1 e2
  have hne : (3 / 2 * Real.sqrt 2 : ℝ) ≠ 0 := by positivity
  simp only [xsAt, ysAt, ne_eq, hne, not_false_eq_true, if_true] at e1 e2
  refine ⟨maps, hm, ?_, ?_⟩
  · rw [e1]
    congr 1
    field_simp
    ring
  · rw [e2]
    congr 1
    field_simp
    ring

theorem corner_rr_linear_any (fov a : ℝ) (h0 : 0 < fov) :
    rrOf Linear (ifocOf Linear (4 * Real.sqrt 2) fov) a / Real.sqrt 2 =
      720 / (fov * Real.pi) * a := by
  have h2pos : 0 < Real.sqrt 2 := Real.sqrt_pos.mpr (by norm_num)
  have hpi := Real.pi_pos
  simp only [rrOf, ifocOf, if_true, pi_real]
  field_simp
  ring

/-- With `fov = 10^(-40)`, `pfov = 120` and kind `Linear`, the corner entry of
`xs` for the region of 4 columns and 4 rows is below `-2^128`. -/
theorem corner_overflow :
    3 / 2 - rrOf Linear (ifocOf Linear (4 * Real.sqrt 2) (1 / 10 ^ 40))
        (Real.arctan (ofocinvOf (4 * Real.sqrt 2) 120 * (3 / 2 * Real.sqrt 2))) /
          Real.sqrt 2 ≤ -(2 ^ 128) := by
  have hpi := Real.pi_pos
  have hpu := Real.pi_lt_d6
  obtain ⟨hbl, _⟩ := sqrt_three_bounds
  have harg : ofocinvOf (4 * Real.sqrt 2) 120 * (3 / 2 * Real.sqrt 2) = 3 * Real.sqrt 3 / 4 := by
    have h := corner_radial
    rw [corner_radial_any, dimFOf_four] at h
    simp only [Radial.mk.injEq, true_and] at h
    exact Real.arctan_injective h
  rw [harg, corner_rr_linear_any _ _ (by positivity)]
  have hθ : Real.pi / 4 < Real.arctan (3 * Real.sqrt 3 / 4) := by
    rw [← Real.arctan_one]
    exact Real.arctan_strictMono (by linarith)
  have hcoef : 720 / (1 / 10 ^ 40 * Real.pi) = 720 * 10 ^ 40 / Real.pi := by
    field_simp
  rw [hcoef]
  have h1 : 720 * 10 ^ 40 / Real.pi * (Real.pi / 4) ≤
      720 * 10 ^ 40 / Real.pi * Real.arctan (3 * Real.sqrt 3 / 4) :=
    mul_le_mul_of_nonneg_left hθ.le (by positivity)
  have h2 : 720 * 10 ^ 40 / Real.pi * (Real.pi / 4) = 180 * 10 ^ 40 := by
    field_simp
    ring
  have h3 : (2 : ℝ) ^ 128 + 3 / 2 ≤ 180 * 10 ^ 40 := by norm_num
  linarith

/-- With `fov = 180`, `pfov = 10^(-6)` and kind `Linear`, the corner entry of
`xs` for the region of 4 columns and 4 rows lies less than `2^(-24)` below
`3/2`. -/
theorem corner_collapse :
    0 < ofocinvOf (4 * Real.sqrt 2) (1 / 10 ^ 6) ∧
    3 / 2 - 1 / 2 ^ 24 <
      3 / 2 - rrOf Linear (ifocOf Linear (4 * Real.sqrt 2) 180)
        (Real.arctan (ofocinvOf (4 * Real.sqrt 2) (1 / 10 ^ 6) * (3 / 2 * Real.sqrt 2))) /
          Real.sqrt 2 ∧
    3 / 2 - rrOf Linear (ifocOf Linear (4 * Real.sqrt 2) 180)
        (Real.arctan (ofocinvOf (4 * Real.sqrt 2) (1 / 10 ^ 6) * (3 / 2 * Real.sqrt 2))) /
          Real.sqrt 2 < 3 / 2 := by
  have hpi := Real.pi_pos
  have hpl := Real.pi_gt_d6
  have hpu := Real.pi_lt_d6
  have h2 := sqrt_two_sq
  have h2pos : 0 < Real.sqrt 2 := Real.sqrt_pos.mpr (by norm_num)
  have ht0 : (0 : ℝ) < 1 / 10 ^ 6 * Real.pi / 360 := by positivity
  have ht1 : (1 : ℝ) / 10 ^ 6 * Real.pi / 360 < 1 / 10 ^ 7 := by
    norm_num at hpu ⊢
    linarith
  have htan0 : 0 < Real.tan (1 / 10 ^ 6 * Real.pi / 360) :=
    Real.tan_pos_of_pos_of_lt_pi_div_two ht0 (by linarith)
  have htan1 : Real.tan (1 / 10 ^ 6 * Real.pi / 360) ≤ 2 * (1 / 10 ^ 6 * Real.pi / 360) := by
    have hs := Real.sin_le ht0.le
    have hc := Real.one_sub_sq_div_two_le_cos (x := 1 / 10 ^ 6 * Real.pi / 360)
    have hc2 : (1 : ℝ) / 2 ≤ Real.cos (1 / 10 ^ 6 * Real.pi / 360) := by nlinarith
    rw [Real.tan_eq_sin_div_cos, div_le_iff₀ (by linarith)]
    nlinarith
  have ho : ofocinvOf (4 * Real.sqrt 2) (1 / 10 ^ 6) =
      Real.tan (1 / 10 ^ 6 * Real.pi / 360) / (2 * Real.sqrt 2) := by
    simp only [ofocinvOf, ofocOf, tan_real, pi_real]
    field_simp
    ring
  have harg : ofocinvOf (4 * Real.sqrt 2) (1 / 10 ^ 6) * (3 / 2 * Real.sqrt 2) =
      3 / 4 * Real.tan (1 / 10 ^ 6 * Real.pi / 360) := by
    rw [ho]
    field_simp
    ring
  have hopos : 0 < ofocinvOf (4 * Real.sqrt 2) (1 / 10 ^ 6) := by
    rw [ho]
    positivity
  rw [harg, corner_rr_linear]
  have hz0 : 0 < 3 / 4 * Real.tan (1 / 10 ^ 6 * Real.pi / 360) := by positivity
  have hz1 : 3 / 4 * Real.tan (1 / 10 ^ 6 * Real.pi / 360) ≤ 1 := by linarith
  have ha0 : 0 < Real.arctan (3 / 4 * Real.tan (1 / 10 ^ 6 * Real.pi / 360)) := by
    have := Real.arctan_strictMono hz0
    rwa [Real.arctan_zero] at this
  have ha1 : Real.arctan (3 / 4 * Real.tan (1 / 10 ^ 6 * Real.pi / 360)) ≤
      3 / 4 * Real.tan (1 / 10 ^ 6 * Real.pi / 360) := by
    have hup := arctan_poly_upper _ hz0.le
    have hz3 : 0 ≤ (3 / 4 * Real.tan (1 / 10 ^ 6 * Real.pi / 360)) ^ 3 := by positivity
    have hz5 : (3 / 4 * Real.tan (1 / 10 ^ 6 * Real.pi / 360)) ^ 5 ≤
        (3 / 4 * Real.tan (1 / 10 ^ 6 * Real.pi / 360)) ^ 3 := by
      apply pow_le_pow_of_le_one hz0.le hz1
      norm_num
    linarith
  have hprod0 : 0 < 4 / Real.pi * Real.arctan (3 / 4 * Real.tan (1 / 10 ^ 6 * Real.pi / 360)) :=
    by positivity
  have hprod1 : 4 / Real.pi * Real.arctan (3 / 4 * Real.tan (1 / 10 ^ 6 * Real.pi / 360)) <
      1 / 2 ^ 24 := by
    have hle : 4 / Real.pi * Real.arctan (3 / 4 * Real.tan (1 / 10 ^ 6 * Real.pi / 360)) ≤
        4 / Real.pi * (3 / 4 * (2 * (1 / 10 ^ 6 * Real.pi / 360))) := by
      apply mul_le_mul_of_nonneg_left _ (by positivity)
      linarith
    have he : 4 / Real.pi * (3 / 4 * (2 * (1 / 10 ^ 6 * Real.pi / 360))) = 1 / (6 * 10 ^ 7) := by
      field_simp
      ring
    have hnum : (1 : ℝ) / (6 * 10 ^ 7) < 1 / 2 ^ 24 := by norm_num
    linarith
  exact ⟨hopos, by linarith, by linarith⟩

/-- For `fov` in `(0,180]`, `pfov` in `(0,180)` and a region of width at
least 1 (whatever its height), every divisor of the mapping is non-zero,
`2*tan(pfov*pi/360)`, `ofoc`, `fov*pi`, `2*sin(fov*pi/720)`,
`2*sin(fov*pi/360)`, `2*tan(fov*pi/720)`, and `rd` is a divisor only in the
`rd != 0` branch (at `rd = 0` the entries are the constants 0); and the
tangent is evaluated at no odd multiple of `pi/2`: not at `pfov*pi/360`, not at
`fov*pi/720`, not at `phiang/2` for any `rd`. -/
theorem divisors_nonzero (fov pfov : ℝ) (hfov : 0 < fov ∧ fov ≤ 180)
    (hpfov : 0 < pfov ∧ pfov < 180) (width height : Nat) (hw : 1 ≤ width) :
    2 * GoMath.tan (pfov * GoMath.pi / 360) ≠ (0 : ℝ) ∧
    ofocOf (dimFOf width height) pfov ≠ (0 : ℝ) ∧
    fov * GoMath.pi ≠ (0 : ℝ) ∧
    2 * GoMath.sin (fov * GoMath.pi / 720) ≠ (0 : ℝ) ∧
    2 * GoMath.sin (fov * GoMath.pi / 360) ≠ (0 : ℝ) ∧
    2 * GoMath.tan (fov * GoMath.pi / 720) ≠ (0 : ℝ) ∧
    (∀ (p : Radial ℝ) (rr xcenter ycenter : ℝ),
      (p.rd ≠ 0 → xsAt xcenter p rr = rr / p.rd * p.xd + xcenter ∧
        ysAt ycenter p rr = rr / p.rd * p.yd + ycenter) ∧
      (p.rd = 0 → xsAt xcenter p rr = 0 ∧ ysAt ycenter p rr = 0)) ∧
    TanDefined (pfov * GoMath.pi / 360) ∧
    TanDefined (fov * GoMath.pi / 720) ∧
    (∀ iv jv xcenter ycenter : ℝ, TanDefined
      ((radialOf iv jv (ofocinvOf (dimFOf width height) pfov) xcenter ycenter).phiang / 2)) := by
  have hpi := Real.pi_pos
  have h1 := tan_pfov_pos pfov hpfov.1 hpfov.2
  have h2 := ofocOf_pos width height hw pfov hpfov.1 hpfov.2
  have h3 := sin_fov_half_pos fov hfov.1 hfov.2
  have h4 := sin_fov_pos fov hfov.1 hfov.2
  have h5 := tan_fov_half_pos fov hfov.1 hfov.2
  simp only [tan_real, sin_real, pi_real]
  refine ⟨by positivity, h2.ne', ?_, by positivity, by positivity, by positivity, ?_, ?_, ?_, ?_⟩
  · exact (mul_pos hfov.1 hpi).ne'
  · intro p rr xcenter ycenter
    constructor
    · intro hne
      simp only [xsAt, ysAt, if_pos hne, and_self]
    · intro h0
      simp only [xsAt, ysAt, h0, ne_eq, not_true_eq_false, if_false, and_self]
  · have ha := pfov_angle pfov hpfov.1 hpfov.2
    exact tanDefined_of_abs_lt _ (by linarith) ha.2
  · have ha := fov_half_angle fov hfov.1 hfov.2
    exact tanDefined_of_abs_lt _ (by linarith) (by linarith)
  · intro iv jv xcenter ycenter
    simp only [radialOf, atan_real]
    have hlo := Real.neg_pi_div_two_lt_arctan
      (ofocinvOf (dimFOf width height) pfov * GoMath.hypot (iv - xcenter) (jv - ycenter))
    have hhi := Real.arctan_lt_pi_div_two
      (ofocinvOf (dimFOf width height) pfov * GoMath.hypot (iv - xcenter) (jv - ycenter))
    exact tanDefined_of_abs_lt _ (by linarith) (by linarith)

end Float32Lemmas

/-! ## The claims -/

section Claims

/-- C1: `Dewarp` returns an error (and so no image) if and only if `fov <= 0`
or `fov > 180` or `pfov <= 0` or `pfov >= 180`.  In particular `fov = 0`,
`fov = 181`, `pfov = 0` and `pfov = 180` are rejected, and `fov = 180` with
`0 < pfov < 180` is not. -/
theorem C1_Dewarp_error_iff {α : Type} [LinearOrderedField α] [GoMath α] :
    (∀ (img : Mat) (fov pfov : α) (pt : ProjectionType),
      (∃ e, Dewarp img fov pfov pt = .error e ∧ e.isError = true) ↔
        (fov ≤ 0 ∨ fov > 180 ∨ pfov ≤ 0 ∨ pfov ≥ 180)) ∧
    (∀ (img : Mat) (pfov : α) (pt : ProjectionType),
      Dewarp img 0 pfov pt = .error (.invalidFOV 0)) ∧
    (∀ (img : Mat) (pfov : α) (pt : ProjectionType),
      Dewarp img 181 pfov pt = .error (.invalidFOV 181)) ∧
    (∀ (img : Mat) (fov : α) (pt : ProjectionType),
      ∃ e, Dewarp img fov 0 pt = .error e ∧ e.isError = true) ∧
    (∀ (img : Mat) (fov : α) (pt : ProjectionType),
      ∃ e, Dewarp img fov 180 pt = .error e ∧ e.isError = true) ∧
    (∀ (img : Mat) (pfov : α) (pt : ProjectionType), 0 < pfov → pfov < 180 →
      ¬ ∃ e, Dewarp img 180 pfov pt = .error e ∧ e.isError = true) := by
  have main : ∀ (img : Mat) (fov pfov : α) (pt : ProjectionType),
      (∃ e, Dewarp img fov pfov pt = .error e ∧ e.isError = true) ↔
        (fov ≤ 0 ∨ fov > 180 ∨ pfov ≤ 0 ∨ pfov ≥ 180) := by
    intro img fov pfov pt
    constructor
    · rintro ⟨e, he, hb⟩
      by_contra hc
      have hf : ¬ (fov ≤ 0 ∨ fov > 180) := fun h => hc (by tauto)
      have hp : ¬ (pfov ≤ 0 ∨ pfov ≥ 180) := fun h => hc (by tauto)
      rw [Dewarp_fault_of_valid img fov pfov pt hf hp e he] at hb
      cases hb
    · intro h
      by_cases hf : fov ≤ 0 ∨ fov > 180
      · exact ⟨.invalidFOV fov, by simp only [Dewarp, if_pos hf], rfl⟩
      · have hp : pfov ≤ 0 ∨ pfov ≥ 180 := by tauto
        exact ⟨.invalidPFOV pfov, by simp only [Dewarp, if_neg hf, if_pos hp], rfl⟩
  refine ⟨main, ?_, ?_, ?_, ?_, ?_⟩
  · intro img pfov pt
    simp [Dewarp]
  · intro img pfov pt
    have h : ((181 : α) ≤ 0 ∨ (181 : α) > 180) := Or.inr (by norm_num)
    simp only [Dewarp, if_pos h]
  · intro img fov pt
    exact (main img fov 0 pt).mpr (Or.inr (Or.inr (Or.inl le_rfl)))
  · intro img fov pt
    exact (main img fov 180 pt).mpr (Or.inr (Or.inr (Or.inr le_rfl)))
  · intro img pfov pt h0 h1 hex
    rcases (main img 180 pfov pt).mp hex with h | h | h | h
    · norm_num at h
    · exact lt_irrefl _ h
    · exact absurd h0 (not_lt.mpr h)
    · exact absurd h1 (not_lt.mpr h)

/-- C1 at a source of 640 columns and 480 rows: `fov = 180` with `pfov = 120`
is not rejected, and `fov = 181` is. -/
theorem C1_Dewarp_error_iff_witness :
    (¬ ∃ e, Dewarp { cols := 640, rows := 480 } (180 : ℝ) 120 Linear = .error e ∧
      e.isError = true) ∧
    Dewarp { cols := 640, rows := 480 } (181 : ℝ) 120 Linear = .error (.invalidFOV 181) :=
  ⟨C1_Dewarp_error_iff.2.2.2.2.2 { cols := 640, rows := 480 } 120 Linear (by norm_num)
      (by norm_num),
    C1_Dewarp_error_iff.2.2.1 { cols := 640, rows := 480 } 120 Linear⟩

/-- C2, as the code has it: for a source of width `W > 0` and height `H > 0`,
with `dim = min(W,H)` and floor division, `x0 = W/2 - dim/2`,
`xf = W/2 + dim/2 = x0 + 2*(dim/2)`, `y0 = H/2 - dim/2`,
`yf = H/2 + dim/2 = y0 + 2*(dim/2)`; the side length `xf - x0 = yf - y0` is
`2*(dim/2)`, which is `min(W,H)` when `min(W,H)` is even and `min(W,H) - 1`
when it is odd. -/
theorem C2_regionBounds_side (W H : Int) (hW : 0 < W) (hH : 0 < H) :
    (regionBounds W H).x0 = W / 2 - min W H / 2 ∧
    (regionBounds W H).xf = (regionBounds W H).x0 + 2 * (min W H / 2) ∧
    (regionBounds W H).y0 = H / 2 - min W H / 2 ∧
    (regionBounds W H).yf = (regionBounds W H).y0 + 2 * (min W H / 2) ∧
    (regionBounds W H).xf - (regionBounds W H).x0 = 2 * (min W H / 2) ∧
    (regionBounds W H).yf - (regionBounds W H).y0 = 2 * (min W H / 2) ∧
    (min W H % 2 = 0 → (regionBounds W H).xf - (regionBounds W H).x0 = min W H) ∧
    (min W H % 2 = 1 → (regionBounds W H).xf - (regionBounds W H).x0 = min W H - 1) := by
  rw [regionBounds_eq W H hW hH]
  simp only
  refine ⟨?_, ?_, ?_, ?_, ?_, ?_, ?_, ?_⟩ <;> first | trivial | omega

/-- C2 at a source of 4 columns and 6 rows. -/
theorem C2_regionBounds_side_witness :
    (regionBounds 4 6).x0 = 4 / 2 - min 4 6 / 2 ∧
    (regionBounds 4 6).xf = (regionBounds 4 6).x0 + 2 * (min 4 6 / 2) ∧
    (regionBounds 4 6).y0 = 6 / 2 - min 4 6 / 2 ∧
    (regionBounds 4 6).yf = (regionBounds 4 6).y0 + 2 * (min 4 6 / 2) ∧
    (regionBounds 4 6).xf - (regionBounds 4 6).x0 = 2 * (min 4 6 / 2) ∧
    (regionBounds 4 6).yf - (regionBounds 4 6).y0 = 2 * (min 4 6 / 2) ∧
    (min (4 : Int) 6 % 2 = 0 → (regionBounds 4 6).xf - (regionBounds 4 6).x0 = min 4 6) ∧
    (min (4 : Int) 6 % 2 = 1 → (regionBounds 4 6).xf - (regionBounds 4 6).x0 = min 4 6 - 1) :=
  C2_regionBounds_side 4 6 (by decide) (by decide)

/-- C2 fails as stated: for a source of 3 columns and 3 rows the bounds are
`x0 = 0`, `xf = 2`, `y0 = 0`, `yf = 2`, so `xf` is not `x0 + dim` and the side
length is 2, not `min(W,H) = 3`. -/
theorem C2_counterexample :
    (0 : Int) < 3 ∧ regionBounds 3 3 = { x0 := 0, xf := 2, y0 := 0, yf := 2 } ∧
    (regionBounds 3 3).xf ≠ (regionBounds 3 3).x0 + min 3 3 ∧
    (regionBounds 3 3).yf ≠ (regionBounds 3 3).y0 + min 3 3 ∧
    (regionBounds 3 3).xf - (regionBounds 3 3).x0 ≠ min 3 3 ∧
    (regionBounds 3 3).yf - (regionBounds 3 3).y0 ≠ min 3 3 := by
  decide

/-- C3: for a source of width `W > 0` and height `H > 0` the region lies inside
the source, `0 <= x0 <= xf <= W` and `0 <= y0 <= yf <= H`; its width equals its
height and is at most `min(W,H)`; on each axis the margin before the region
and the margin after it differ by at most 1.  So the bounds assertion of
`Mat.Region` holds, and the region has `xf - x0` columns and `yf - y0` rows. -/
theorem C3_regionBounds_centered (W H : Nat) (hW : 0 < W) (hH : 0 < H) :
    0 ≤ (regionBounds W H).x0 ∧ (regionBounds W H).x0 ≤ (regionBounds W H).xf ∧
    (regionBounds W H).xf ≤ W ∧
    0 ≤ (regionBounds W H).y0 ∧ (regionBounds W H).y0 ≤ (regionBounds W H).yf ∧
    (regionBounds W H).yf ≤ H ∧
    (regionBounds W H).xf - (regionBounds W H).x0 =
      (regionBounds W H).yf - (regionBounds W H).y0 ∧
    (regionBounds W H).xf - (regionBounds W H).x0 ≤ min (W : Int) H ∧
    |(regionBounds W H).x0 - (W - (regionBounds W H).xf)| ≤ 1 ∧
    |(regionBounds W H).y0 - (H - (regionBounds W H).yf)| ≤ 1 ∧
    ∃ roi : Mat,
      (Mat.Region { cols := W, rows := H }
        (imageRect (regionBounds W H).x0 (regionBounds W H).y0
          (regionBounds W H).xf (regionBounds W H).yf) : Except (Fault Unit) Mat) = .ok roi ∧
      (roi.cols : Int) = (regionBounds W H).xf - (regionBounds W H).x0 ∧
      (roi.rows : Int) = (regionBounds W H).yf - (regionBounds W H).y0 := by
  have hW2 : (0 : Int) < W := by exact_mod_cast hW
  have hH2 : (0 : Int) < H := by exact_mod_cast hH
  have hreg := Region_regionBounds (α := Unit) W H hW hH
  rw [regionBounds_eq W H hW2 hH2] at hreg ⊢
  simp only at hreg ⊢
  have hm : min (W : Int) H ≤ W := min_le_left _ _
  have hm2 : min (W : Int) H ≤ H := min_le_right _ _
  have hm0 : 0 < min (W : Int) H := lt_min hW2 hH2
  refine ⟨by omega, by omega, by omega, by omega, by omega, by omega, by omega, by omega,
    ?_, ?_, ?_⟩
  · rw [abs_le]; constructor <;> omega
  · rw [abs_le]; constructor <;> omega
  · refine ⟨_, hreg, ?_, ?_⟩ <;>
      · simp only [Nat.cast_mul, Nat.cast_ofNat]
        omega

/-- C3 at a source of 5 columns and 3 rows. -/
theorem C3_regionBounds_centered_witness :
    (regionBounds 5 3).x0 = 1 ∧ (regionBounds 5 3).xf = 3 ∧
    |(regionBounds (5 : Nat) (3 : Nat)).x0 - ((5 : Nat) - (regionBounds (5 : Nat) (3 : Nat)).xf)| ≤ 1 :=
  ⟨by decide, by decide, (C3_regionBounds_centered 5 3 (by decide) (by decide)).2.2.2.2.2.2.2.2.1⟩

/-- C4, as the code has it: `Dewarp` does not look at the projection type
before the image work.  For a projection type that is none of `Linear`,
`EqualArea`, `Orthographic`, `Stereographic` and angles in range, `Dewarp`
returns no error: the scale constant `ifoc` is left at 0, and on a source of
at least 2 columns and 2 rows the maps are computed and the result is
returned. -/
theorem C4_unknown_kind_not_rejected {α : Type} [LinearOrderedField α] [GoMath α]
    (pt : ProjectionType)
    (hpt : pt ≠ Linear ∧ pt ≠ EqualArea ∧ pt ≠ Orthographic ∧ pt ≠ Stereographic)
    (img : Mat) (fov pfov : α) (hfov : 0 < fov ∧ fov ≤ 180) (hpfov : 0 < pfov ∧ pfov < 180) :
    (∀ e, Dewarp img fov pfov pt = .error e → e.isError = false) ∧
    (∀ dim : α, ifocOf pt dim fov = 0) ∧
    (2 ≤ img.cols → 2 ≤ img.rows → ∃ r, Dewarp img fov pfov pt = .ok r) := by
  have hf : ¬ (fov ≤ 0 ∨ fov > 180) := by
    rintro (h | h)
    · exact absurd hfov.1 (not_lt.mpr h)
    · exact absurd h (not_lt.mpr hfov.2)
  have hp : ¬ (pfov ≤ 0 ∨ pfov ≥ 180) := by
    rintro (h | h)
    · exact absurd hpfov.1 (not_lt.mpr h)
    · exact absurd hpfov.2 (not_lt.mpr h)
  refine ⟨fun e he => Dewarp_fault_of_valid img fov pfov pt hf hp e he, ?_, ?_⟩
  · intro dim
    simp only [ifocOf, if_neg hpt.1, if_neg hpt.2.1, if_neg hpt.2.2.1, if_neg hpt.2.2.2]
  · intro hc hr
    obtain ⟨r, hr, _⟩ := Dewarp_total img fov pfov pt hf hp hc hr
    exact ⟨r, hr⟩

/-- C4 at the projection type `Fisheye`, a source of 640 columns and 480 rows,
`fov = 180` and `pfov = 120`. -/
theorem C4_unknown_kind_not_rejected_witness :
    (∀ e, Dewarp { cols := 640, rows := 480 } (180 : ℝ) 120 "Fisheye" = .error e →
      e.isError = false) ∧
    (∀ dim : ℝ, ifocOf "Fisheye" dim 180 = 0) ∧
    ((2 : Nat) ≤ 640 → (2 : Nat) ≤ 480 →
      ∃ r, Dewarp { cols := 640, rows := 480 } (180 : ℝ) 120 "Fisheye" = .ok r) :=
  C4_unknown_kind_not_rejected "Fisheye" (by decide) { cols := 640, rows := 480 } 180 120
    (by norm_num) (by norm_num)

/-- C4 fails as stated: with the projection type `Fisheye`, which is none of
the four constants, `Dewarp` on a source of 2 columns and 2 rows with
`fov = 180` and `pfov = 120` returns its result, not an error. -/
theorem C4_counterexample :
    ("Fisheye" ≠ Linear ∧ "Fisheye" ≠ EqualArea ∧ "Fisheye" ≠ Orthographic ∧
      "Fisheye" ≠ Stereographic) ∧
    (∃ r, Dewarp { cols := 2, rows := 2 } (180 : ℝ) 120 "Fisheye" = .ok r) ∧
    ¬ ∃ e, Dewarp { cols := 2, rows := 2 } (180 : ℝ) 120 "Fisheye" = .error e := by
  obtain ⟨r, hr, _⟩ := Dewarp_total { cols := 2, rows := 2 } (180 : ℝ) 120 "Fisheye"
    (by norm_num) (by norm_num) (by decide) (by decide)
  refine ⟨by decide, ⟨r, hr⟩, ?_⟩
  rintro ⟨e, he⟩
  rw [hr] at he
  cases he

/-- C5: on grids that can be read at every pixel, `remap` returns maps such
that, for each of the four kinds and every pixel `(row, col)` of the grid with
`rd != 0`, where `xd = i[row][col] - xcenter`, `yd = j[row][col] - ycenter`,
`rd = hypot(xd, yd)` and `phiang = atan(ofocinv * rd)`,
`xs[row][col] = (rr/rd)*xd + xcenter` and `ys[row][col] = (rr/rd)*yd + ycenter`
with `rr = ifoc * f(phiang)`, where `(ifoc, f)` is: Linear
`(dim*180/(fov*pi), phi)`; EqualArea `(dim/(2*sin(fov*pi/720)), sin(phi/2))`;
Orthographic `(dim/(2*sin(fov*pi/360)), sin(phi))`; Stereographic
`(dim/(2*tan(fov*pi/720)), tan(phi/2))`. -/
theorem C5_remap_formula {α : Type} [LinearOrderedField α] [GoMath α]
    (i j : List (List α)) (i0 : List α) (rest : List (List α)) (hi : i = i0 :: rest)
    (hacc : Accessible i j i.length i0.length)
    (ofocinv dim fov xcenter ycenter : α) (pt : ProjectionType) :
    ∃ maps, remap i j ofocinv dim fov xcenter ycenter pt = .ok maps ∧
      ∀ row col iv jv, row < i.length → col < i0.length →
        at2 i row col = .ok iv → at2 j row col = .ok jv →
        ∀ xd yd rd phiang rr : α, xd = iv - xcenter → yd = jv - ycenter →
          rd = GoMath.hypot xd yd → phiang = GoMath.atan (ofocinv * rd) → rd ≠ 0 →
          ((pt = Linear ∧ rr = dim * 180 / (fov * GoMath.pi) * phiang) ∨
           (pt = EqualArea ∧
              rr = dim / (2 * GoMath.sin (fov * GoMath.pi / 720)) * GoMath.sin (phiang / 2)) ∨
           (pt = Orthographic ∧
              rr = dim / (2 * GoMath.sin (fov * GoMath.pi / 360)) * GoMath.sin phiang) ∨
           (pt = Stereographic ∧
              rr = dim / (2 * GoMath.tan (fov * GoMath.pi / 720)) * GoMath.tan (phiang / 2))) →
          at2 maps.1 row col = .ok (rr / rd * xd + xcenter) ∧
          at2 maps.2 row col = .ok (rr / rd * yd + ycenter) := by
  obtain ⟨maps, hm⟩ := remap_total i j ofocinv dim fov xcenter ycenter pt i0 rest hi hacc
  refine ⟨maps, hm, ?_⟩
  intro row col iv jv hrow hcol hiv hjv xd yd rd phiang rr hxd hyd hrd hphi hne hcase
  obtain ⟨e1, e2⟩ := remap_entry i j ofocinv dim fov xcenter ycenter pt i0 rest hi maps hm
    row col hrow hcol iv jv hiv hjv
  subst hxd hyd
  subst hrd
  subst hphi
  have hrr : rrOf pt (ifocOf pt dim fov) (radialOf iv jv ofocinv xcenter ycenter).phiang = rr := by
    have n1 : EqualArea ≠ Linear := by decide
    have n2 : Orthographic ≠ Linear := by decide
    have n3 : Orthographic ≠ EqualArea := by decide
    have n4 : Stereographic ≠ Linear := by decide
    have n5 : Stereographic ≠ EqualArea := by decide
    have n6 : Stereographic ≠ Orthographic := by decide
    rcases hcase with ⟨rfl, rfl⟩ | ⟨rfl, rfl⟩ | ⟨rfl, rfl⟩ | ⟨rfl, rfl⟩
    · simp only [rrOf, ifocOf, radialOf, if_true]
    · simp only [rrOf, ifocOf, radialOf, if_neg n1, if_true]
    · simp only [rrOf, ifocOf, radialOf, if_neg n2, if_neg n3, if_true]
    · simp only [rrOf, ifocOf, radialOf, if_neg n4, if_neg n5, if_neg n6, if_true]
  rw [hrr] at e1 e2
  have hne2 : (radialOf iv jv ofocinv xcenter ycenter).rd ≠ 0 := hne
  rw [e1, e2]
  simp only [xsAt, ysAt, if_pos hne2]
  exact ⟨rfl, rfl⟩

/-- C5 on the grids of a region of 2 columns and 2 rows, with `ofocinv = 1`,
`dim = 2`, `fov = 180`, center `(1/2, 1/2)` and kind `Linear`. -/
theorem C5_remap_formula_witness :
    ∃ maps, remap (meshgrid (arange 2 : List ℝ) (arange 2)).1
        (meshgrid (arange 2 : List ℝ) (arange 2)).2 1 2 180 (1 / 2) (1 / 2) Linear = .ok maps ∧
      ∀ row col iv jv, row < (meshgrid (arange 2 : List ℝ) (arange 2)).1.length →
        col < (arange 2 : List ℝ).length →
        at2 (meshgrid (arange 2 : List ℝ) (arange 2)).1 row col = .ok iv →
        at2 (meshgrid (arange 2 : List ℝ) (arange 2)).2 row col = .ok jv →
        ∀ xd yd rd phiang rr : ℝ, xd = iv - 1 / 2 → yd = jv - 1 / 2 →
          rd = GoMath.hypot xd yd → phiang = GoMath.atan (1 * rd) → rd ≠ 0 →
          ((Linear = Linear ∧ rr = 2 * 180 / (180 * GoMath.pi) * phiang) ∨
           (Linear = EqualArea ∧
              rr = 2 / (2 * GoMath.sin (180 * GoMath.pi / 720)) * GoMath.sin (phiang / 2)) ∨
           (Linear = Orthographic ∧
              rr = 2 / (2 * GoMath.sin (180 * GoMath.pi / 360)) * GoMath.sin phiang) ∨
           (Linear = Stereographic ∧
              rr = 2 / (2 * GoMath.tan (180 * GoMath.pi / 720)) * GoMath.tan (phiang / 2))) →
          at2 maps.1 row col = .ok (rr / rd * xd + 1 / 2) ∧
          at2 maps.2 row col = .ok (rr / rd * yd + 1 / 2) :=
  C5_remap_formula (meshgrid (arange 2 : List ℝ) (arange 2)).1
    (meshgrid (arange 2 : List ℝ) (arange 2)).2 (arange 2)
    [arange 2] rfl
    (by
      have h := Accessible_meshgrid (α := ℝ) 2 2
      simpa [meshgrid, arange_length] using h)
    1 2 180 (1 / 2) (1 / 2) Linear

/-- C6 at its failing input: for a source of 1 column and 1 row, `fov = 180`,
`pfov = 120` and kind `Linear`, the range checks pass, the region is the empty
rectangle `[0,0) x [0,0)`, its diagonal and `ofoc` are 0, and `Dewarp` stops in
`remap` with an index out of range panic. -/
theorem C6_Dewarp_panics_on_unit_source :
    regionBounds 1 1 = { x0 := 0, xf := 0, y0 := 0, yf := 0 } ∧
    (dimFOf 0 0 : ℝ) = 0 ∧ ofocOf (dimFOf 0 0 : ℝ) 120 = 0 ∧
    remap (meshgrid (arange 0 : List ℝ) (arange 0)).1 (meshgrid (arange 0 : List ℝ) (arange 0)).2
      (ofocinvOf (dimFOf 0 0) 120) (dimFOf 0 0) 180 (-1 / 2) (-1 / 2) Linear = .error .indexOutOfRange ∧
    Dewarp { cols := 1, rows := 1 } (180 : ℝ) 120 Linear = .error .indexOutOfRange := by
  have hd : (dimFOf 0 0 : ℝ) = 0 := by
    rw [dimFOf_real]
    norm_num
  refine ⟨by decide, hd, ?_, rfl, ?_⟩
  · rw [hd]
    simp only [ofocOf, zero_div]
  · exact Dewarp_panic { cols := 1, rows := 1 } (180 : ℝ) 120 Linear (by norm_num) (by norm_num)
      (by decide)

/-- C7: on grids that can be read at every pixel, for every kind, `fov`,
`ofocinv` and `dim`, `remap` returns maps with `xs[row][col] = 0` and
`ys[row][col] = 0` at every pixel of the grid with `i[row][col] = xcenter` and
`j[row][col] = ycenter`; and `rd = 0` holds at a pixel exactly when
`i[row][col] = xcenter` and `j[row][col] = ycenter`. -/
theorem C7_center_sentinel (i j : List (List ℝ)) (i0 : List ℝ) (rest : List (List ℝ))
    (hi : i = i0 :: rest) (hacc : Accessible i j i.length i0.length)
    (ofocinv dim fov xcenter ycenter : ℝ) (pt : ProjectionType) :
    ∃ maps, remap i j ofocinv dim fov xcenter ycenter pt = .ok maps ∧
      (∀ row col, row < i.length → col < i0.length →
        at2 i row col = .ok xcenter → at2 j row col = .ok ycenter →
        at2 maps.1 row col = .ok 0 ∧ at2 maps.2 row col = .ok 0) ∧
      (∀ row col iv jv, row < i.length → col < i0.length →
        at2 i row col = .ok iv → at2 j row col = .ok jv →
        (GoMath.hypot (iv - xcenter) (jv - ycenter) = 0 ↔ iv = xcenter ∧ jv = ycenter)) := by
  obtain ⟨maps, hm⟩ := remap_total i j ofocinv dim fov xcenter ycenter pt i0 rest hi hacc
  refine ⟨maps, hm, ?_, ?_⟩
  · intro row col hrow hcol hiv hjv
    obtain ⟨e1, e2⟩ := remap_entry i j ofocinv dim fov xcenter ycenter pt i0 rest hi maps hm
      row col hrow hcol xcenter ycenter hiv hjv
    have hrd : (radialOf xcenter ycenter ofocinv xcenter ycenter).rd = 0 :=
      (radialOf_rd_eq_zero_iff _ _ _ _ _).mpr ⟨rfl, rfl⟩
    rw [e1, e2]
    simp only [xsAt, ysAt, hrd, ne_eq, not_true_eq_false, if_false, and_self]
  · intro row col iv jv _ _ _ _
    rw [hypot_eq_zero_iff, sub_eq_zero, sub_eq_zero]

/-- C7 on the grids of a region of 3 columns and 3 rows with center `(1, 1)`,
`ofocinv = 1`, `dim = 3`, `fov = 180` and kind `Linear`: the pixel of row 1 and
column 1 is mapped to `(0, 0)`. -/
theorem C7_center_sentinel_witness :
    ∃ maps, remap (meshgrid (arange 3 : List ℝ) (arange 3)).1
        (meshgrid (arange 3 : List ℝ) (arange 3)).2 1 3 180 1 1 Linear = .ok maps ∧
      at2 maps.1 1 1 = .ok 0 ∧ at2 maps.2 1 1 = .ok 0 := by
  obtain ⟨maps, hm, hcenter, _⟩ := C7_center_sentinel (meshgrid (arange 3 : List ℝ) (arange 3)).1
    (meshgrid (arange 3 : List ℝ) (arange 3)).2 (arange 3) [arange 3, arange 3] rfl
    (by
      have h := Accessible_meshgrid (α := ℝ) 3 3
      simpa [meshgrid, arange_length] using h)
    1 3 180 1 1 Linear
  refine ⟨maps, hm, hcenter 1 1 (by simp [meshgrid, arange]) (by simp [arange]) ?_ ?_⟩
  · have h := at2_meshgrid_fst (α := ℝ) 3 3 1 1 (by decide) (by decide)
    simpa using h
  · have h := at2_meshgrid_snd (α := ℝ) 3 3 1 1 (by decide) (by decide)
    simpa using h

/-- C8, as the code has it: for `fov` in `(0,180]`, `pfov` in `(0,180)`, every
projection type and a region of width and height at least 1, every divisor of
the mapping is non-zero, `2*tan(pfov*pi/360)`, `ofoc`, `fov*pi`,
`2*sin(fov*pi/720)`, `2*sin(fov*pi/360)`, `2*tan(fov*pi/720)`, and the tangent
is evaluated at no odd multiple of `pi/2`; the maps are returned, each entry of
`xs` and `ys` before the conversion to `float32` is a number of absolute value
at most `(width-1)/2 + 180*dimF/fov`, respectively
`(height-1)/2 + 180*dimF/fov`, and where that bound is below `2^128 - 2^103`
the `float32` entry is finite. -/
theorem C8_outputs_finite (fov pfov : ℝ) (hfov : 0 < fov ∧ fov ≤ 180)
    (hpfov : 0 < pfov ∧ pfov < 180) (width height : Nat) (hw : 1 ≤ width) (hh : 1 ≤ height)
    (pt : ProjectionType) :
    2 * GoMath.tan (pfov * GoMath.pi / 360) ≠ (0 : ℝ) ∧
    ofocOf (dimFOf width height) pfov ≠ (0 : ℝ) ∧
    fov * GoMath.pi ≠ (0 : ℝ) ∧
    2 * GoMath.sin (fov * GoMath.pi / 720) ≠ (0 : ℝ) ∧
    2 * GoMath.sin (fov * GoMath.pi / 360) ≠ (0 : ℝ) ∧
    2 * GoMath.tan (fov * GoMath.pi / 720) ≠ (0 : ℝ) ∧
    TanDefined (pfov * GoMath.pi / 360) ∧
    TanDefined (fov * GoMath.pi / 720) ∧
    (∀ iv jv xcenter ycenter : ℝ, TanDefined
      ((radialOf iv jv (ofocinvOf (dimFOf width height) pfov) xcenter ycenter).phiang / 2)) ∧
    ∃ maps maps32, regionMaps width height fov pfov pt = .ok maps ∧
      regionMapsFloat32 width height fov pfov pt = .ok maps32 ∧
      ∀ row col, row < height → col < width →
        ∃ xs ys : ℝ, at2 maps.1 row col = .ok xs ∧ at2 maps.2 row col = .ok ys ∧
          at2 maps32.1 row col = .ok (toFloat32 xs) ∧
          at2 maps32.2 row col = .ok (toFloat32 ys) ∧
          |xs| ≤ (((width : Int) - 1 : Int) : ℝ) / 2 + 180 * dimFOf width height / fov ∧
          |ys| ≤ (((height : Int) - 1 : Int) : ℝ) / 2 + 180 * dimFOf width height / fov ∧
          ((((width : Int) - 1 : Int) : ℝ) / 2 + 180 * dimFOf width height / fov
              < 2 ^ 128 - 2 ^ 103 → ∃ x, toFloat32 xs = .finite x) ∧
          ((((height : Int) - 1 : Int) : ℝ) / 2 + 180 * dimFOf width height / fov
              < 2 ^ 128 - 2 ^ 103 → ∃ y, toFloat32 ys = .finite y) := by
  obtain ⟨d1, d2, d3, d4, d5, d6, _, t1, t2, t3⟩ :=
    divisors_nonzero fov pfov hfov hpfov width height hw
  refine ⟨d1, d2, d3, d4, d5, d6, t1, t2, t3, ?_⟩
  obtain ⟨maps, hm, _⟩ := regionMaps_total width height fov pfov pt (by omega)
  refine ⟨maps, _, hm, regionMapsFloat32_ok width height fov pfov pt maps hm, ?_⟩
  intro row col hrow hcol
  have hm2 := hm
  unfold regionMaps at hm2
  obtain ⟨e1, e2⟩ := remap_meshgrid_entry width height _ _ _ _ _ pt maps hm2 row col hrow hcol
  have hxc : (0 : ℝ) ≤ (((width : Int) - 1 : Int) : ℝ) / 2 := by
    have : (1 : ℝ) ≤ (width : ℝ) := by exact_mod_cast hw
    push_cast
    linarith
  have hyc : (0 : ℝ) ≤ (((height : Int) - 1 : Int) : ℝ) / 2 := by
    have : (1 : ℝ) ≤ (height : ℝ) := by exact_mod_cast hh
    push_cast
    linarith
  have ho := ofocinvOf_nonneg width height pfov hpfov.1 hpfov.2
  have hrd := hypot_nonneg ((col : ℝ) - (((width : Int) - 1 : Int) : ℝ) / 2)
    ((row : ℝ) - (((height : Int) - 1 : Int) : ℝ) / 2)
  have hphi := arctan_range _ (mul_nonneg ho hrd)
  have hrr := rrOf_bounds pt (dimFOf width height) fov _ (dimFOf_nonneg width height)
    hfov.1 hfov.2 hphi.1 hphi.2
  have habs := radialOf_abs_le (col : ℝ) (row : ℝ) (ofocinvOf (dimFOf width height) pfov)
    ((((width : Int) - 1 : Int) : ℝ) / 2) ((((height : Int) - 1 : Int) : ℝ) / 2)
  have bx := entry_abs_le _ _ _ _ _ hxc hrr.1 hrr.2 habs.1
  have byy := entry_abs_le _ _ _ _ _ hyc hrr.1 hrr.2 habs.2
  refine ⟨_, _, e1, e2, at2_map_ok toFloat32 _ row col _ e1,
    at2_map_ok toFloat32 _ row col _ e2, bx, byy, ?_, ?_⟩
  · intro hlt
    exact toFloat32_finite _ (lt_of_le_of_lt bx hlt)
  · intro hlt
    exact toFloat32_finite _ (lt_of_le_of_lt byy hlt)

/-- C8 at `fov = 180`, `pfov = 120`, kind `Linear` and a region of 4 columns
and 4 rows: the corner entry of `xs` in `float32` is finite. -/
theorem C8_outputs_finite_witness :
    ofocOf (dimFOf 4 4) 120 ≠ (0 : ℝ) ∧
    ∃ maps maps32, regionMaps 4 4 (180 : ℝ) 120 Linear = .ok maps ∧
      regionMapsFloat32 4 4 (180 : ℝ) 120 Linear = .ok maps32 ∧
      ∃ xs x : ℝ, at2 maps.1 0 0 = .ok xs ∧ at2 maps32.1 0 0 = .ok (toFloat32 xs) ∧
        toFloat32 xs = .finite x := by
  obtain ⟨_, d2, _, _, _, _, _, _, _, maps, maps32, hm, hm32, hent⟩ :=
    C8_outputs_finite 180 120 (by norm_num) (by norm_num) 4 4 (by decide) (by decide) Linear
  obtain ⟨xs, _, e1, _, e32, _, _, _, hfin, _⟩ := hent 0 0 (by decide) (by decide)
  have hbound : ((((4 : Nat) : Int) - 1 : Int) : ℝ) / 2 + 180 * dimFOf 4 4 / 180 <
      2 ^ 128 - 2 ^ 103 := by
    rw [dimFOf_four]
    have h2 : Real.sqrt 2 < 2 := by
      rw [Real.sqrt_lt' (by norm_num)]
      norm_num
    norm_num
    linarith
  obtain ⟨x, hx⟩ := hfin hbound
  exact ⟨d2, maps, maps32, hm, hm32, xs, x, e1, e32, hx⟩

/-- C8 fails as stated: `fov = 10^(-40)` and `pfov = 120` are in range, and for
the region of 4 columns and 4 rows and kind `Linear` the entries of `xs` and
`ys` at the corner pixel (row 0, column 0) are `-Inf`. -/
theorem C8_counterexample :
    (0 : ℝ) < 1 / 10 ^ 40 ∧ (1 : ℝ) / 10 ^ 40 ≤ 180 ∧ (0 : ℝ) < 120 ∧ (120 : ℝ) < 180 ∧
    ∃ maps32, regionMapsFloat32 4 4 ((1 : ℝ) / 10 ^ 40) 120 Linear = .ok maps32 ∧
      at2 maps32.1 0 0 = .ok .negInf ∧ at2 maps32.2 0 0 = .ok .negInf := by
  obtain ⟨maps, hm, e1, e2⟩ := corner_entry_any (1 / 10 ^ 40) 120 Linear
  have h32 := regionMapsFloat32_ok 4 4 _ _ _ maps hm
  have c1 := at2_map_ok toFloat32 _ 0 0 _ e1
  have c2 := at2_map_ok toFloat32 _ 0 0 _ e2
  rw [toFloat32_negInf _ corner_overflow] at c1 c2
  exact ⟨by positivity, by norm_num, by norm_num, by norm_num, _, h32, c1, c2⟩

/-- C9: with the kind (any of the four), `fov` in `(0,180]`, `pfov` in
`(0,180)`, the width and the height fixed, the forward radius is non-decreasing
in `rd`: for `0 <= rd1 <= rd2`,
`ifoc*f(atan(ofocinv*rd1)) <= ifoc*f(atan(ofocinv*rd2))`, where `ifoc`, `f` and
`ofocinv` are those of `remap` and `Dewarp` for the region diagonal. -/
theorem C9_rr_monotone (pt : ProjectionType)
    (hpt : pt = Linear ∨ pt = EqualArea ∨ pt = Orthographic ∨ pt = Stereographic)
    (fov pfov : ℝ) (hfov : 0 < fov ∧ fov ≤ 180) (hpfov : 0 < pfov ∧ pfov < 180)
    (width height : Nat) (rd1 rd2 : ℝ) (h0 : 0 ≤ rd1) (h12 : rd1 ≤ rd2) :
    rrOf pt (ifocOf pt (dimFOf width height) fov)
        (GoMath.atan (ofocinvOf (dimFOf width height) pfov * rd1)) ≤
      rrOf pt (ifocOf pt (dimFOf width height) fov)
        (GoMath.atan (ofocinvOf (dimFOf width height) pfov * rd2)) ∧
    ((pt = Linear →
        dimFOf width height * 180 / (fov * GoMath.pi) *
            GoMath.atan (ofocinvOf (dimFOf width height) pfov * rd1) ≤
          dimFOf width height * 180 / (fov * GoMath.pi) *
            GoMath.atan (ofocinvOf (dimFOf width height) pfov * rd2)) ∧
     (pt = EqualArea →
        dimFOf width height / (2 * GoMath.sin (fov * GoMath.pi / 720)) *
            GoMath.sin (GoMath.atan (ofocinvOf (dimFOf width height) pfov * rd1) / 2) ≤
          dimFOf width height / (2 * GoMath.sin (fov * GoMath.pi / 720)) *
            GoMath.sin (GoMath.atan (ofocinvOf (dimFOf width height) pfov * rd2) / 2)) ∧
     (pt = Orthographic →
        dimFOf width height / (2 * GoMath.sin (fov * GoMath.pi / 360)) *
            GoMath.sin (GoMath.atan (ofocinvOf (dimFOf width height) pfov * rd1)) ≤
          dimFOf width height / (2 * GoMath.sin (fov * GoMath.pi / 360)) *
            GoMath.sin (GoMath.atan (ofocinvOf (dimFOf width height) pfov * rd2))) ∧
     (pt = Stereographic →
        dimFOf width height / (2 * GoMath.tan (fov * GoMath.pi / 720)) *
            GoMath.tan (GoMath.atan (ofocinvOf (dimFOf width height) pfov * rd1) / 2) ≤
          dimFOf width height / (2 * GoMath.tan (fov * GoMath.pi / 720)) *
            GoMath.tan (GoMath.atan (ofocinvOf (dimFOf width height) pfov * rd2) / 2))) := by
  have ho := ofocinvOf_nonneg width height pfov hpfov.1 hpfov.2
  have hif := ifocOf_nonneg pt (dimFOf width height) fov (dimFOf_nonneg width height)
    hfov.1 hfov.2
  have ha := arctan_range (ofocinvOf (dimFOf width height) pfov * rd1) (mul_nonneg ho h0)
  have hb := arctan_range (ofocinvOf (dimFOf width height) pfov * rd2)
    (mul_nonneg ho (h0.trans h12))
  have hab : Real.arctan (ofocinvOf (dimFOf width height) pfov * rd1) ≤
      Real.arctan (ofocinvOf (dimFOf width height) pfov * rd2) :=
    Real.arctan_strictMono.monotone (mul_le_mul_of_nonneg_left h12 ho)
  have main := rrOf_mono pt (ifocOf pt (dimFOf width height) fov) _ _ hif ha.1 hab hb.2
  have n1 : EqualArea ≠ Linear := by decide
  have n2 : Orthographic ≠ Linear := by decide
  have n3 : Orthographic ≠ EqualArea := by decide
  have n4 : Stereographic ≠ Linear := by decide
  have n5 : Stereographic ≠ EqualArea := by decide
  have n6 : Stereographic ≠ Orthographic := by decide
  refine ⟨main, ?_, ?_, ?_, ?_⟩
  · intro h
    subst h
    simpa only [rrOf, ifocOf, if_true, atan_real] using main
  · intro h
    subst h
    simpa only [rrOf, ifocOf, if_neg n1, if_true, atan_real] using main
  · intro h
    subst h
    simpa only [rrOf, ifocOf, if_neg n2, if_neg n3, if_true, atan_real] using main
  · intro h
    subst h
    simpa only [rrOf, ifocOf, if_neg n4, if_neg n5, if_neg n6, if_true, atan_real] using main

/-- C9 for the kind `Stereographic`, `fov = 180`, `pfov = 120`, a region of 4
columns and 4 rows, `rd1 = 1` and `rd2 = 2`. -/
theorem C9_rr_monotone_witness :
    rrOf Stereographic (ifocOf Stereographic (dimFOf 4 4) 180)
        (GoMath.atan (ofocinvOf (dimFOf 4 4) 120 * 1)) ≤
      rrOf Stereographic (ifocOf Stereographic (dimFOf 4 4) (180 : ℝ))
        (GoMath.atan (ofocinvOf (dimFOf 4 4) 120 * 2)) :=
  (C9_rr_monotone Stereographic (Or.inr (Or.inr (Or.inr rfl))) 180 120 (by norm_num)
    (by norm_num) 4 4 1 2 (by norm_num) (by norm_num)).1

/-- C10: for each of the four kinds, every `fov` in `(0,180]` and every `dim`,
at the angle `phi = fov*pi/360` the forward radius `ifoc*f(phi)` is `dim/2`. -/
theorem C10_ifoc_normalizes (pt : ProjectionType)
    (hpt : pt = Linear ∨ pt = EqualArea ∨ pt = Orthographic ∨ pt = Stereographic)
    (fov : ℝ) (hfov : 0 < fov ∧ fov ≤ 180) (dim : ℝ) :
    rrOf pt (ifocOf pt dim fov) (fov * GoMath.pi / 360) = dim / 2 ∧
    ((pt = Linear → dim * 180 / (fov * GoMath.pi) * (fov * GoMath.pi / 360) = dim / 2) ∧
     (pt = EqualArea →
        dim / (2 * GoMath.sin (fov * GoMath.pi / 720)) *
          GoMath.sin (fov * GoMath.pi / 360 / 2) = dim / 2) ∧
     (pt = Orthographic →
        dim / (2 * GoMath.sin (fov * GoMath.pi / 360)) *
          GoMath.sin (fov * GoMath.pi / 360) = dim / 2) ∧
     (pt = Stereographic →
        dim / (2 * GoMath.tan (fov * GoMath.pi / 720)) *
          GoMath.tan (fov * GoMath.pi / 360 / 2) = dim / 2)) := by
  have hpi := Real.pi_pos
  have h3 := sin_fov_half_pos fov hfov.1 hfov.2
  have h4 := sin_fov_pos fov hfov.1 hfov.2
  have h5 := tan_fov_half_pos fov hfov.1 hfov.2
  have hhalf : fov * Real.pi / 360 / 2 = fov * Real.pi / 720 := by ring
  have c1 : dim * 180 / (fov * Real.pi) * (fov * Real.pi / 360) = dim / 2 := by
    have : fov * Real.pi ≠ 0 := (mul_pos hfov.1 hpi).ne'
    field_simp
    ring
  have c2 : dim / (2 * Real.sin (fov * Real.pi / 720)) *
      Real.sin (fov * Real.pi / 360 / 2) = dim / 2 := by
    rw [hhalf]
    field_simp
    ring
  have c3 : dim / (2 * Real.sin (fov * Real.pi / 360)) *
      Real.sin (fov * Real.pi / 360) = dim / 2 := by
    field_simp
    ring
  have c4 : dim / (2 * Real.tan (fov * Real.pi / 720)) *
      Real.tan (fov * Real.pi / 360 / 2) = dim / 2 := by
    rw [hhalf]
    field_simp
    ring
  have n1 : EqualArea ≠ Linear := by decide
  have n2 : Orthographic ≠ Linear := by decide
  have n3 : Orthographic ≠ EqualArea := by decide
  have n4 : Stereographic ≠ Linear := by decide
  have n5 : Stereographic ≠ EqualArea := by decide
  have n6 : Stereographic ≠ Orthographic := by decide
  simp only [tan_real, sin_real, pi_real]
  refine ⟨?_, fun _ => c1, fun _ => c2, fun _ => c3, fun _ => c4⟩
  rcases hpt with h | h | h | h <;> subst h
  · simpa only [rrOf, ifocOf, if_true, pi_real] using c1
  · simpa only [rrOf, ifocOf, if_neg n1, if_true, pi_real, sin_real] using c2
  · simpa only [rrOf, ifocOf, if_neg n2, if_neg n3, if_true, pi_real, sin_real] using c3
  · simpa only [rrOf, ifocOf, if_neg n4, if_neg n5, if_neg n6, if_true, pi_real, tan_real]
      using c4

/-- C10 for the kind `Orthographic`, `fov = 180` and `dim = 8`. -/
theorem C10_ifoc_normalizes_witness :
    rrOf Orthographic (ifocOf Orthographic (8 : ℝ) 180) (180 * GoMath.pi / 360) = 8 / 2 :=
  (C10_ifoc_normalizes Orthographic (Or.inr (Or.inr (Or.inl rfl))) 180 (by norm_num) 8).1

/-- C11: for every width and height, `meshgrid(arange(width), arange(height))`
returns two grids of exactly `height` rows of exactly `width` entries, with
`i[row][col] = col` and `j[row][col] = row` for `row` in `[0,height)` and `col`
in `[0,width)`; and on such a grid with at least one row `remap` returns `xs`
and `ys` of that same shape. -/
theorem C11_meshgrid_shape {α : Type} [LinearOrderedField α] [GoMath α] (width height : Nat) :
    (meshgrid (arange width : List α) (arange height)).1.length = height ∧
    (meshgrid (arange width : List α) (arange height)).2.length = height ∧
    (∀ r ∈ (meshgrid (arange width : List α) (arange height)).1, r.length = width) ∧
    (∀ r ∈ (meshgrid (arange width : List α) (arange height)).2, r.length = width) ∧
    (∀ row col, row < height → col < width →
      at2 (meshgrid (arange width : List α) (arange height)).1 row col = .ok (col : α) ∧
      at2 (meshgrid (arange width : List α) (arange height)).2 row col = .ok (row : α)) ∧
    (0 < height → ∀ (ofocinv dim fov xcenter ycenter : α) (pt : ProjectionType),
      ∃ maps, remap (meshgrid (arange width : List α) (arange height)).1
          (meshgrid (arange width : List α) (arange height)).2
          ofocinv dim fov xcenter ycenter pt = .ok maps ∧
        maps.1.length = height ∧ maps.2.length = height ∧
        (∀ r ∈ maps.1, r.length = width) ∧ (∀ r ∈ maps.2, r.length = width)) := by
  refine ⟨(meshgrid_length width height).1, (meshgrid_length width height).2,
    (meshgrid_rows width height).1, (meshgrid_rows width height).2, ?_, ?_⟩
  · intro row col hr hc
    exact ⟨at2_meshgrid_fst width height row col hr hc,
      at2_meshgrid_snd width height row col hr hc⟩
  · intro hh ofocinv dim fov xcenter ycenter pt
    exact remap_meshgrid_total width height hh ofocinv dim fov xcenter ycenter pt

/-- C11 at width 3 and height 2, over the reals: the entry of row 1 and column
2 of the first grid is 2, that of the second grid is 1, and `remap` returns maps
of 2 rows. -/
theorem C11_meshgrid_shape_witness :
    at2 (meshgrid (arange 3 : List ℝ) (arange 2)).1 1 2 = .ok ((2 : Nat) : ℝ) ∧
    at2 (meshgrid (arange 3 : List ℝ) (arange 2)).2 1 2 = .ok ((1 : Nat) : ℝ) ∧
    ∃ maps, remap (meshgrid (arange 3 : List ℝ) (arange 2)).1
        (meshgrid (arange 3 : List ℝ) (arange 2)).2 1 5 180 1 (1 / 2) Linear = .ok maps ∧
      maps.1.length = 2 ∧ maps.2.length = 2 ∧
      (∀ r ∈ maps.1, r.length = 3) ∧ (∀ r ∈ maps.2, r.length = 3) :=
  ⟨((C11_meshgrid_shape (α := ℝ) 3 2).2.2.2.2.1 1 2 (by decide) (by decide)).1,
    ((C11_meshgrid_shape (α := ℝ) 3 2).2.2.2.2.1 1 2 (by decide) (by decide)).2,
    (C11_meshgrid_shape (α := ℝ) 3 2).2.2.2.2.2 (by decide) 1 5 180 1 (1 / 2) Linear⟩

/-- C13: for `rd >= 0` and `ofocinv >= 0` the angle `phiang = atan(ofocinv*rd)`
of `remap` satisfies `0 <= phiang < pi/2`, at every pixel; and for `pfov` in
`(0,180)` and a positive diagonal the `ofocinv` of `Dewarp` is positive, as it
is for every region of width at least 1. -/
theorem C13_phiang_range :
    (∀ rd ofocinv : ℝ, 0 ≤ rd → 0 ≤ ofocinv →
      0 ≤ GoMath.atan (ofocinv * rd) ∧ GoMath.atan (ofocinv * rd) < (GoMath.pi : ℝ) / 2) ∧
    (∀ iv jv ofocinv xcenter ycenter : ℝ, 0 ≤ ofocinv →
      0 ≤ (radialOf iv jv ofocinv xcenter ycenter).rd ∧
      0 ≤ (radialOf iv jv ofocinv xcenter ycenter).phiang ∧
      (radialOf iv jv ofocinv xcenter ycenter).phiang < (GoMath.pi : ℝ) / 2) ∧
    (∀ pfov dimF : ℝ, 0 < pfov → pfov < 180 → 0 < dimF → 0 < ofocinvOf dimF pfov) ∧
    (∀ (pfov : ℝ) (width height : Nat), 0 < pfov → pfov < 180 → 1 ≤ width →
      (0 : ℝ) < dimFOf width height ∧ (0 : ℝ) < ofocinvOf (dimFOf width height) pfov) := by
  have hinv : ∀ pfov dimF : ℝ, 0 < pfov → pfov < 180 → 0 < dimF → 0 < ofocinvOf dimF pfov := by
    intro pfov dimF h0 h1 hd
    have ht := tan_pfov_pos pfov h0 h1
    simp only [ofocinvOf, ofocOf, tan_real, pi_real]
    positivity
  refine ⟨?_, ?_, hinv, ?_⟩
  · intro rd ofocinv hrd ho
    simp only [atan_real, pi_real]
    exact arctan_range _ (mul_nonneg ho hrd)
  · intro iv jv ofocinv xcenter ycenter ho
    have hrd : 0 ≤ (radialOf iv jv ofocinv xcenter ycenter).rd := hypot_nonneg _ _
    refine ⟨hrd, ?_⟩
    have hphi : (radialOf iv jv ofocinv xcenter ycenter).phiang =
        Real.arctan (ofocinv * (radialOf iv jv ofocinv xcenter ycenter).rd) := rfl
    rw [hphi, pi_real]
    exact arctan_range _ (mul_nonneg ho hrd)
  · intro pfov width height h0 h1 hw
    exact ⟨dimFOf_pos width height hw, hinv pfov _ h0 h1 (dimFOf_pos width height hw)⟩

/-- C13 at `ofocinv = 1` and `rd = 2`, and at `pfov = 120` for a region of 4
columns and 4 rows. -/
theorem C13_phiang_range_witness :
    (0 ≤ GoMath.atan ((1 : ℝ) * 2) ∧ GoMath.atan ((1 : ℝ) * 2) < (GoMath.pi : ℝ) / 2) ∧
    (0 : ℝ) < ofocinvOf (dimFOf 4 4) 120 :=
  ⟨C13_phiang_range.1 2 1 (by norm_num) (by norm_num),
    (C13_phiang_range.2.2.2 120 4 4 (by norm_num) (by norm_num) (by decide)).2⟩

/-- C16: the validation error of `Dewarp` carries the offending value, and
`fov` is checked first: when `fov <= 0` or `fov > 180` the result is the
invalid-FOV error with `fov`, whatever `pfov`, the source and the kind are;
when `fov` is in `(0,180]` and `pfov <= 0` or `pfov >= 180` it is the
invalid-PFOV error with `pfov`, whatever the source and the kind are.  Both are
returned errors. -/
theorem C16_validation_error {α : Type} [LinearOrderedField α] [GoMath α]
    (img : Mat) (fov pfov : α) (pt : ProjectionType) :
    ((fov ≤ 0 ∨ fov > 180) →
      Dewarp img fov pfov pt = .error (.invalidFOV fov) ∧
      (Fault.invalidFOV fov).isError = true) ∧
    (0 < fov → fov ≤ 180 → (pfov ≤ 0 ∨ pfov ≥ 180) →
      Dewarp img fov pfov pt = .error (.invalidPFOV pfov) ∧
      (Fault.invalidPFOV pfov).isError = true) := by
  constructor
  · intro hf
    exact ⟨by simp only [Dewarp, if_pos hf], rfl⟩
  · intro h0 h1 hp
    have hf : ¬ (fov ≤ 0 ∨ fov > 180) := by
      rintro (h | h)
      · exact absurd h0 (not_lt.mpr h)
      · exact absurd h (not_lt.mpr h1)
    exact ⟨by simp only [Dewarp, if_neg hf, if_pos hp], rfl⟩

/-- C16 over the reals: `fov = 200` with `pfov = 500` gives the invalid-FOV
error with 200, and `fov = 90` with `pfov = 180` the invalid-PFOV error with
180. -/
theorem C16_validation_error_witness :
    Dewarp { cols := 640, rows := 480 } (200 : ℝ) 500 Linear = .error (.invalidFOV 200) ∧
    Dewarp { cols := 640, rows := 480 } (90 : ℝ) 180 Linear = .error (.invalidPFOV 180) :=
  ⟨((C16_validation_error { cols := 640, rows := 480 } (200 : ℝ) 500 Linear).1
      (Or.inr (by norm_num))).1,
    ((C16_validation_error { cols := 640, rows := 480 } (90 : ℝ) 180 Linear).2
      (by norm_num) (by norm_num) (Or.inr (by norm_num))).1⟩

/-- C18: for a projection type that is none of the four constants, `remap`
leaves `ifoc = 0` and `rr = 0` at every pixel, and on grids that can be read at
every pixel it returns maps in which every pixel with `rd != 0` has
`xs = xcenter` and `ys = ycenter`, whatever `fov`, `ofocinv`, `dim` and the
position of the pixel are. -/
theorem C18_unknown_kind_constant {α : Type} [LinearOrderedField α] [GoMath α]
    (pt : ProjectionType)
    (hpt : pt ≠ Linear ∧ pt ≠ EqualArea ∧ pt ≠ Orthographic ∧ pt ≠ Stereographic)
    (i j : List (List α)) (i0 : List α) (rest : List (List α)) (hi : i = i0 :: rest)
    (hacc : Accessible i j i.length i0.length)
    (ofocinv dim fov xcenter ycenter : α) :
    ifocOf pt dim fov = 0 ∧ (∀ ifoc phiang : α, rrOf pt ifoc phiang = 0) ∧
    ∃ maps, remap i j ofocinv dim fov xcenter ycenter pt = .ok maps ∧
      ∀ row col iv jv, row < i.length → col < i0.length →
        at2 i row col = .ok iv → at2 j row col = .ok jv →
        GoMath.hypot (iv - xcenter) (jv - ycenter) ≠ 0 →
        at2 maps.1 row col = .ok xcenter ∧ at2 maps.2 row col = .ok ycenter := by
  have hifoc : ∀ d f : α, ifocOf pt d f = 0 := by
    intro d f
    simp only [ifocOf, if_neg hpt.1, if_neg hpt.2.1, if_neg hpt.2.2.1, if_neg hpt.2.2.2]
  have hrr : ∀ ifoc phiang : α, rrOf pt ifoc phiang = 0 := by
    intro ifoc phiang
    simp only [rrOf, if_neg hpt.1, if_neg hpt.2.1, if_neg hpt.2.2.1, if_neg hpt.2.2.2]
  obtain ⟨maps, hm⟩ := remap_total i j ofocinv dim fov xcenter ycenter pt i0 rest hi hacc
  refine ⟨hifoc dim fov, hrr, maps, hm, ?_⟩
  intro row col iv jv hrow hcol hiv hjv hne
  obtain ⟨e1, e2⟩ := remap_entry i j ofocinv dim fov xcenter ycenter pt i0 rest hi maps hm
    row col hrow hcol iv jv hiv hjv
  have hne2 : (radialOf iv jv ofocinv xcenter ycenter).rd ≠ 0 := hne
  rw [e1, e2, hrr]
  simp only [xsAt, ysAt, if_pos hne2, zero_div, zero_mul, zero_add, and_self]

/-- C18 for the projection type `Fisheye` on the grids of a region of 2
columns and 2 rows over the reals, with center `(1/2, 1/2)`. -/
theorem C18_unknown_kind_constant_witness :
    ifocOf "Fisheye" (2 : ℝ) 180 = 0 ∧ (∀ ifoc phiang : ℝ, rrOf "Fisheye" ifoc phiang = 0) ∧
    ∃ maps, remap (meshgrid (arange 2 : List ℝ) (arange 2)).1
        (meshgrid (arange 2 : List ℝ) (arange 2)).2 1 2 180 (1 / 2) (1 / 2) "Fisheye" = .ok maps ∧
      ∀ row col iv jv, row < (meshgrid (arange 2 : List ℝ) (arange 2)).1.length →
        col < (arange 2 : List ℝ).length →
        at2 (meshgrid (arange 2 : List ℝ) (arange 2)).1 row col = .ok iv →
        at2 (meshgrid (arange 2 : List ℝ) (arange 2)).2 row col = .ok jv →
        GoMath.hypot (iv - 1 / 2) (jv - 1 / 2) ≠ 0 →
        at2 maps.1 row col = .ok (1 / 2) ∧ at2 maps.2 row col = .ok (1 / 2) :=
  C18_unknown_kind_constant "Fisheye" (by decide) (meshgrid (arange 2 : List ℝ) (arange 2)).1
    (meshgrid (arange 2 : List ℝ) (arange 2)).2 (arange 2) [arange 2] rfl
    (by
      have h := Accessible_meshgrid (α := ℝ) 2 2
      simpa [meshgrid, arange_length] using h)
    1 2 180 (1 / 2) (1 / 2)

/-- C19, as the code has it: for each of the four kinds, `fov` in `(0,180]`,
`ofocinv > 0` and `dim > 0`, on grids that can be read at every pixel `remap`
returns maps such that, before the conversion to `float32` and in exact
arithmetic, at every pixel with `rd != 0` the factor `scale = rr/rd` is
positive, `xs - xcenter = scale*xd` and `ys - ycenter = scale*yd`; so
`xs - xcenter` has the sign of `xd` and `ys - ycenter` the sign of `yd`, and
each is zero exactly when `xd`, respectively `yd`, is zero. -/
theorem C19_direction_preserved (pt : ProjectionType)
    (hpt : pt = Linear ∨ pt = EqualArea ∨ pt = Orthographic ∨ pt = Stereographic)
    (fov ofocinv dim : ℝ) (hfov : 0 < fov ∧ fov ≤ 180) (ho : 0 < ofocinv) (hdim : 0 < dim)
    (i j : List (List ℝ)) (i0 : List ℝ) (rest : List (List ℝ)) (hi : i = i0 :: rest)
    (hacc : Accessible i j i.length i0.length) (xcenter ycenter : ℝ) :
    ∃ maps, remap i j ofocinv dim fov xcenter ycenter pt = .ok maps ∧
      ∀ row col iv jv, row < i.length → col < i0.length →
        at2 i row col = .ok iv → at2 j row col = .ok jv →
        GoMath.hypot (iv - xcenter) (jv - ycenter) ≠ 0 →
        ∃ scale xs ys : ℝ,
          scale = rrOf pt (ifocOf pt dim fov)
            (GoMath.atan (ofocinv * GoMath.hypot (iv - xcenter) (jv - ycenter))) /
              GoMath.hypot (iv - xcenter) (jv - ycenter) ∧
          0 < scale ∧
          at2 maps.1 row col = .ok xs ∧ at2 maps.2 row col = .ok ys ∧
          xs - xcenter = scale * (iv - xcenter) ∧ ys - ycenter = scale * (jv - ycenter) ∧
          SignType.sign (xs - xcenter) = SignType.sign (iv - xcenter) ∧
          SignType.sign (ys - ycenter) = SignType.sign (jv - ycenter) ∧
          (xs - xcenter = 0 ↔ iv - xcenter = 0) ∧ (ys - ycenter = 0 ↔ jv - ycenter = 0) := by
  obtain ⟨maps, hm⟩ := remap_total i j ofocinv dim fov xcenter ycenter pt i0 rest hi hacc
  refine ⟨maps, hm, ?_⟩
  intro row col iv jv hrow hcol hiv hjv hne
  obtain ⟨e1, e2⟩ := remap_entry i j ofocinv dim fov xcenter ycenter pt i0 rest hi maps hm
    row col hrow hcol iv jv hiv hjv
  have hne2 : (radialOf iv jv ofocinv xcenter ycenter).rd ≠ 0 := hne
  have hpos := scale_pos pt hpt dim fov ofocinv hdim hfov.1 hfov.2 ho iv jv xcenter ycenter hne2
  simp only [xsAt, ysAt, if_pos hne2] at e1 e2
  refine ⟨_, _, _, rfl, hpos, e1, e2, ?_, ?_, ?_, ?_, ?_, ?_⟩
  · simp only [radialOf]
    ring
  · simp only [radialOf]
    ring
  · have hx : rrOf pt (ifocOf pt dim fov) (radialOf iv jv ofocinv xcenter ycenter).phiang /
        (radialOf iv jv ofocinv xcenter ycenter).rd *
        (radialOf iv jv ofocinv xcenter ycenter).xd + xcenter - xcenter =
        rrOf pt (ifocOf pt dim fov) (radialOf iv jv ofocinv xcenter ycenter).phiang /
        (radialOf iv jv ofocinv xcenter ycenter).rd * (iv - xcenter) := by
      simp only [radialOf]
      ring
    rw [hx, sign_mul, sign_pos hpos, one_mul]
  · have hy : rrOf pt (ifocOf pt dim fov) (radialOf iv jv ofocinv xcenter ycenter).phiang /
        (radialOf iv jv ofocinv xcenter ycenter).rd *
        (radialOf iv jv ofocinv xcenter ycenter).yd + ycenter - ycenter =
        rrOf pt (ifocOf pt dim fov) (radialOf iv jv ofocinv xcenter ycenter).phiang /
        (radialOf iv jv ofocinv xcenter ycenter).rd * (jv - ycenter) := by
      simp only [radialOf]
      ring
    rw [hy, sign_mul, sign_pos hpos, one_mul]
  · have hx : (radialOf iv jv ofocinv xcenter ycenter).xd = iv - xcenter := rfl
    rw [hx, add_sub_cancel_right, mul_eq_zero]
    constructor
    · rintro (h | h)
      · exact absurd h hpos.ne'
      · exact h
    · exact Or.inr
  · have hy : (radialOf iv jv ofocinv xcenter ycenter).yd = jv - ycenter := rfl
    rw [hy, add_sub_cancel_right, mul_eq_zero]
    constructor
    · rintro (h | h)
      · exact absurd h hpos.ne'
      · exact h
    · exact Or.inr

/-- C19 for the kind `EqualArea` on the grids of a region of 2 columns and 2
rows, with `fov = 180`, `ofocinv = 1`, `dim = 2` and center `(1/2, 1/2)`. -/
theorem C19_direction_preserved_witness :
    ∃ maps, remap (meshgrid (arange 2 : List ℝ) (arange 2)).1
        (meshgrid (arange 2 : List ℝ) (arange 2)).2 1 2 180 (1 / 2) (1 / 2) EqualArea = .ok maps ∧
      ∀ row col iv jv, row < (meshgrid (arange 2 : List ℝ) (arange 2)).1.length →
        col < (arange 2 : List ℝ).length →
        at2 (meshgrid (arange 2 : List ℝ) (arange 2)).1 row col = .ok iv →
        at2 (meshgrid (arange 2 : List ℝ) (arange 2)).2 row col = .ok jv →
        GoMath.hypot (iv - 1 / 2) (jv - 1 / 2) ≠ 0 →
        ∃ scale xs ys : ℝ,
          scale = rrOf EqualArea (ifocOf EqualArea 2 180)
            (GoMath.atan (1 * GoMath.hypot (iv - 1 / 2) (jv - 1 / 2))) /
              GoMath.hypot (iv - 1 / 2) (jv - 1 / 2) ∧
          0 < scale ∧
          at2 maps.1 row col = .ok xs ∧ at2 maps.2 row col = .ok ys ∧
          xs - 1 / 2 = scale * (iv - 1 / 2) ∧ ys - 1 / 2 = scale * (jv - 1 / 2) ∧
          SignType.sign (xs - 1 / 2) = SignType.sign (iv - 1 / 2) ∧
          SignType.sign (ys - 1 / 2) = SignType.sign (jv - 1 / 2) ∧
          (xs - 1 / 2 = 0 ↔ iv - 1 / 2 = 0) ∧ (ys - 1 / 2 = 0 ↔ jv - 1 / 2 = 0) :=
  C19_direction_preserved EqualArea (Or.inr (Or.inl rfl)) 180 1 2 (by norm_num) (by norm_num)
    (by norm_num) (meshgrid (arange 2 : List ℝ) (arange 2)).1
    (meshgrid (arange 2 : List ℝ) (arange 2)).2 (arange 2) [arange 2] rfl
    (by
      have h := Accessible_meshgrid (α := ℝ) 2 2
      simpa [meshgrid, arange_length] using h)
    (1 / 2) (1 / 2)

/-- C19 fails as stated: with kind `Linear`, `fov = 180`, `pfov = 10^(-6)` and the
region of 4 columns and 4 rows, `ofocinv > 0`, `dim > 0`, and the corner pixel
(row 0, column 0) has `xd = yd = -3/2` and `rd != 0`, but its entries of `xs`
and `ys` are `3/2`, which is `xcenter` and `ycenter`. -/
theorem C19_counterexample :
    (0 : ℝ) < ofocinvOf (dimFOf 4 4) (1 / 10 ^ 6) ∧ (0 : ℝ) < dimFOf 4 4 ∧
    (radialOf ((0 : Nat) : ℝ) ((0 : Nat) : ℝ) (ofocinvOf (dimFOf 4 4) (1 / 10 ^ 6))
      (((((4 : Nat) : Int) - 1 : Int) : ℝ) / 2)
      (((((4 : Nat) : Int) - 1 : Int) : ℝ) / 2)).xd = -(3 / 2) ∧
    (radialOf ((0 : Nat) : ℝ) ((0 : Nat) : ℝ) (ofocinvOf (dimFOf 4 4) (1 / 10 ^ 6))
      (((((4 : Nat) : Int) - 1 : Int) : ℝ) / 2)
      (((((4 : Nat) : Int) - 1 : Int) : ℝ) / 2)).yd = -(3 / 2) ∧
    (radialOf ((0 : Nat) : ℝ) ((0 : Nat) : ℝ) (ofocinvOf (dimFOf 4 4) (1 / 10 ^ 6))
      (((((4 : Nat) : Int) - 1 : Int) : ℝ) / 2)
      (((((4 : Nat) : Int) - 1 : Int) : ℝ) / 2)).rd ≠ 0 ∧
    (((((4 : Nat) : Int) - 1 : Int) : ℝ) / 2) = 3 / 2 ∧
    ∃ maps32, regionMapsFloat32 4 4 (180 : ℝ) (1 / 10 ^ 6) Linear = .ok maps32 ∧
      at2 maps32.1 0 0 = .ok (.finite (3 / 2)) ∧ at2 maps32.2 0 0 = .ok (.finite (3 / 2)) := by
  obtain ⟨hopos, hlo, hhi⟩ := corner_collapse
  obtain ⟨maps, hm, e1, e2⟩ := corner_entry_any 180 (1 / 10 ^ 6) Linear
  have h32 := regionMapsFloat32_ok 4 4 _ _ _ maps hm
  have c1 := at2_map_ok toFloat32 _ 0 0 _ e1
  have c2 := at2_map_ok toFloat32 _ 0 0 _ e2
  rw [toFloat32_near _ hlo hhi.le] at c1 c2
  have h2pos : 0 < Real.sqrt 2 := Real.sqrt_pos.mpr (by norm_num)
  refine ⟨?_, ?_, ?_, ?_, ?_, by norm_num, _, h32, c1, c2⟩
  · rw [dimFOf_four]
    exact hopos
  · rw [dimFOf_four]
    positivity
  · rw [corner_radial_any]
  · rw [corner_radial_any]
  · rw [corner_radial_any]
    simp only
    positivity

/-- C14: on a square region (`width = height = n`, `xcenter = ycenter`, grids
from `meshgrid`) `remap` returns maps such that, for all `a`, `b` in `[0,n)`,
the pixels (row `a`, column `b`) and (row `b`, column `a`) have equal `rd` and
equal `rr`, and `xs[a][b] = ys[b][a]`, for every kind, `fov`, `dim` and
`ofocinv`. -/
theorem C14_square_symmetry (n : Nat) (hn : 0 < n) (ofocinv dim fov center : ℝ)
    (pt : ProjectionType) :
    ∃ maps, remap (meshgrid (arange n : List ℝ) (arange n)).1
        (meshgrid (arange n : List ℝ) (arange n)).2 ofocinv dim fov center center pt = .ok maps ∧
      ∀ a b, a < n → b < n →
        (radialOf (b : ℝ) (a : ℝ) ofocinv center center).rd =
          (radialOf (a : ℝ) (b : ℝ) ofocinv center center).rd ∧
        rrOf pt (ifocOf pt dim fov) (radialOf (b : ℝ) (a : ℝ) ofocinv center center).phiang =
          rrOf pt (ifocOf pt dim fov) (radialOf (a : ℝ) (b : ℝ) ofocinv center center).phiang ∧
        ∃ v, at2 maps.1 a b = .ok v ∧ at2 maps.2 b a = .ok v := by
  obtain ⟨maps, hm, _⟩ := remap_meshgrid_total n n hn ofocinv dim fov center center pt
  refine ⟨maps, hm, ?_⟩
  intro a b ha hb
  have hh : (GoMath.hypot ((b : ℝ) - center) ((a : ℝ) - center) : ℝ) =
      GoMath.hypot ((a : ℝ) - center) ((b : ℝ) - center) := hypot_comm _ _
  have hrd : (radialOf (b : ℝ) (a : ℝ) ofocinv center center).rd =
      (radialOf (a : ℝ) (b : ℝ) ofocinv center center).rd := hh
  have hphi : (radialOf (b : ℝ) (a : ℝ) ofocinv center center).phiang =
      (radialOf (a : ℝ) (b : ℝ) ofocinv center center).phiang := by
    simp only [radialOf, hh]
  obtain ⟨e1, _⟩ := remap_meshgrid_entry n n ofocinv dim fov center center pt maps hm a b ha hb
  obtain ⟨_, e2⟩ := remap_meshgrid_entry n n ofocinv dim fov center center pt maps hm b a hb ha
  refine ⟨hrd, by rw [hphi], _, e1, ?_⟩
  rw [e2, hphi]
  simp only [xsAt, ysAt, radialOf, hh]

/-- C14 on a region of 4 columns and 4 rows with center `3/2`, `ofocinv = 1`,
`dim = 4`, `fov = 180` and kind `Orthographic`: the entry of `xs` at row 0 and
column 3 is the entry of `ys` at row 3 and column 0. -/
theorem C14_square_symmetry_witness :
    ∃ maps, remap (meshgrid (arange 4 : List ℝ) (arange 4)).1
        (meshgrid (arange 4 : List ℝ) (arange 4)).2 1 4 180 (3 / 2) (3 / 2) Orthographic =
          .ok maps ∧
      ∃ v, at2 maps.1 0 3 = .ok v ∧ at2 maps.2 3 0 = .ok v := by
  obtain ⟨maps, hm, hsym⟩ := C14_square_symmetry 4 (by decide) 1 4 180 (3 / 2) Orthographic
  exact ⟨maps, hm, (hsym 0 3 (by decide) (by decide)).2.2⟩

/-- C17: for a source of width `W > 0` and height `H > 0` the region has
`2*(min(W,H)/2)` columns and as many rows, an even number; its center
coordinate `(width-1)/2` is no integer; every pixel has `xd != 0`, `yd != 0` and
`rd > 0`; and every result of `Dewarp` holds the maps of that region, in which
each entry is the value `(rr/rd)*xd + xcenter`, `(rr/rd)*yd + ycenter` of the
`rd != 0` branch. -/
theorem C17_no_sentinel_in_Dewarp (W H : Nat) (hW : 0 < W) (hH : 0 < H) (fov pfov : ℝ)
    (pt : ProjectionType) :
    (Mat.Region { cols := W, rows := H }
      (imageRect (regionBounds W H).x0 (regionBounds W H).y0
        (regionBounds W H).xf (regionBounds W H).yf) : Except (Fault ℝ) Mat) =
      .ok { cols := 2 * (min W H / 2), rows := 2 * (min W H / 2) } ∧
    (2 * (min W H / 2)) % 2 = 0 ∧
    (∀ z : ℤ, (((((2 * (min W H / 2) : Nat) : Int) - 1 : Int) : ℝ) / 2) ≠ (z : ℝ)) ∧
    (∀ (row col : Nat) (ofocinv : ℝ),
      (radialOf (col : ℝ) (row : ℝ) ofocinv
        (((((2 * (min W H / 2) : Nat) : Int) - 1 : Int) : ℝ) / 2)
        (((((2 * (min W H / 2) : Nat) : Int) - 1 : Int) : ℝ) / 2)).xd ≠ 0 ∧
      (radialOf (col : ℝ) (row : ℝ) ofocinv
        (((((2 * (min W H / 2) : Nat) : Int) - 1 : Int) : ℝ) / 2)
        (((((2 * (min W H / 2) : Nat) : Int) - 1 : Int) : ℝ) / 2)).yd ≠ 0 ∧
      0 < (radialOf (col : ℝ) (row : ℝ) ofocinv
        (((((2 * (min W H / 2) : Nat) : Int) - 1 : Int) : ℝ) / 2)
        (((((2 * (min W H / 2) : Nat) : Int) - 1 : Int) : ℝ) / 2)).rd) ∧
    (∀ r, Dewarp { cols := W, rows := H } fov pfov pt = .ok r →
      ∃ maps, regionMaps (2 * (min W H / 2)) (2 * (min W H / 2)) fov pfov pt = .ok maps ∧
        r.xsMat.data = maps.1.flatten ∧ r.ysMat.data = maps.2.flatten ∧
        ∀ row col, row < 2 * (min W H / 2) → col < 2 * (min W H / 2) →
          ∃ p : Radial ℝ,
            p = radialOf (col : ℝ) (row : ℝ)
              (ofocinvOf (dimFOf (2 * (min W H / 2)) (2 * (min W H / 2))) pfov)
              (((((2 * (min W H / 2) : Nat) : Int) - 1 : Int) : ℝ) / 2)
              (((((2 * (min W H / 2) : Nat) : Int) - 1 : Int) : ℝ) / 2) ∧
            p.rd ≠ 0 ∧
            at2 maps.1 row col = .ok
              (rrOf pt (ifocOf pt (dimFOf (2 * (min W H / 2)) (2 * (min W H / 2))) fov) p.phiang /
                p.rd * p.xd + ((((2 * (min W H / 2) : Nat) : Int) - 1 : Int) : ℝ) / 2) ∧
            at2 maps.2 row col = .ok
              (rrOf pt (ifocOf pt (dimFOf (2 * (min W H / 2)) (2 * (min W H / 2))) fov) p.phiang /
                p.rd * p.yd + ((((2 * (min W H / 2) : Nat) : Int) - 1 : Int) : ℝ) / 2)) := by
  have hpix : ∀ (row col : Nat) (ofocinv : ℝ),
      (radialOf (col : ℝ) (row : ℝ) ofocinv
        (((((2 * (min W H / 2) : Nat) : Int) - 1 : Int) : ℝ) / 2)
        (((((2 * (min W H / 2) : Nat) : Int) - 1 : Int) : ℝ) / 2)).xd ≠ 0 ∧
      (radialOf (col : ℝ) (row : ℝ) ofocinv
        (((((2 * (min W H / 2) : Nat) : Int) - 1 : Int) : ℝ) / 2)
        (((((2 * (min W H / 2) : Nat) : Int) - 1 : Int) : ℝ) / 2)).yd ≠ 0 ∧
      0 < (radialOf (col : ℝ) (row : ℝ) ofocinv
        (((((2 * (min W H / 2) : Nat) : Int) - 1 : Int) : ℝ) / 2)
        (((((2 * (min W H / 2) : Nat) : Int) - 1 : Int) : ℝ) / 2)).rd := by
    intro row col ofocinv
    have hx : ((col : ℝ) - ((((2 * (min W H / 2) : Nat) : Int) - 1 : Int) : ℝ) / 2) ≠ 0 := by
      intro h
      exact half_center_ne_int (min W H / 2) (col : ℤ) (by push_cast; push_cast at h; linarith)
    have hy : ((row : ℝ) - ((((2 * (min W H / 2) : Nat) : Int) - 1 : Int) : ℝ) / 2) ≠ 0 := by
      intro h
      exact half_center_ne_int (min W H / 2) (row : ℤ) (by push_cast; push_cast at h; linarith)
    refine ⟨hx, hy, ?_⟩
    apply lt_of_le_of_ne (hypot_nonneg _ _)
    intro h0
    exact hx ((hypot_eq_zero_iff _ _).mp h0.symm).1
  refine ⟨Region_regionBounds W H hW hH, by omega, fun z => half_center_ne_int _ z, hpix, ?_⟩
  intro r hr
  obtain ⟨maps, hm, hx, hy, _⟩ := Dewarp_ok_inv { cols := W, rows := H } fov pfov pt hW hH r hr
  refine ⟨maps, hm, hx, hy, ?_⟩
  intro row col hrow hcol
  have hne := (hpix row col
    (ofocinvOf (dimFOf (2 * (min W H / 2)) (2 * (min W H / 2))) pfov)).2.2.ne'
  unfold regionMaps at hm
  obtain ⟨e1, e2⟩ := remap_meshgrid_entry _ _ _ _ _ _ _ _ maps hm row col hrow hcol
  refine ⟨_, rfl, hne, ?_, ?_⟩
  · rw [e1]
    simp only [xsAt, if_pos hne]
  · rw [e2]
    simp only [ysAt, if_pos hne]

/-- C17 for a source of 5 columns and 3 rows, `fov = 180`, `pfov = 120` and
kind `Linear`: the region has 2 columns and 2 rows and its center coordinate
`1/2` is no integer. -/
theorem C17_no_sentinel_in_Dewarp_witness :
    (Mat.Region { cols := 5, rows := 3 }
      (imageRect (regionBounds (5 : Nat) (3 : Nat)).x0 (regionBounds (5 : Nat) (3 : Nat)).y0
        (regionBounds (5 : Nat) (3 : Nat)).xf (regionBounds (5 : Nat) (3 : Nat)).yf) :
          Except (Fault ℝ) Mat) =
      .ok { cols := 2 * (min 5 3 / 2), rows := 2 * (min 5 3 / 2) } ∧
    (∀ z : ℤ, (((((2 * (min 5 3 / 2) : Nat) : Int) - 1 : Int) : ℝ) / 2) ≠ (z : ℝ)) :=
  ⟨(C17_no_sentinel_in_Dewarp 5 3 (by decide) (by decide) 180 120 Linear).1,
    (C17_no_sentinel_in_Dewarp 5 3 (by decide) (by decide) 180 120 Linear).2.2.1⟩

/-- C12, as the code has it: for a region of 4 columns and 4 rows with
`fov = 180`, `pfov = 120` and kind `Linear`, `dimF = sqrt(32)`,
`ofocinv = 1/(sqrt(32)/(2*tan(pi/3))) = sqrt(6)/4`, `xcenter = ycenter = 3/2`,
and the corner pixel (row 0, column 0) maps to
`xs = ys = 3/2 - (4/pi)*atan(3*sqrt(3)/4)`, which is within `1e-6` of
0.335313. -/
theorem C12_corner_example :
    (dimFOf 4 4 : ℝ) = Real.sqrt 32 ∧
    ofocinvOf (dimFOf 4 4 : ℝ) 120 = 1 / (Real.sqrt 32 / (2 * Real.tan (Real.pi / 3))) ∧
    ofocinvOf (dimFOf 4 4 : ℝ) 120 = Real.sqrt 6 / 4 ∧
    (((((4 : Nat) : Int) - 1 : Int) : ℝ) / 2) = 3 / 2 ∧
    (∃ maps, regionMaps 4 4 (180 : ℝ) 120 Linear = .ok maps ∧
      at2 maps.1 0 0 = .ok (3 / 2 - 4 / Real.pi * Real.arctan (3 * Real.sqrt 3 / 4)) ∧
      at2 maps.2 0 0 = .ok (3 / 2 - 4 / Real.pi * Real.arctan (3 * Real.sqrt 3 / 4))) ∧
    |3 / 2 - 4 / Real.pi * Real.arctan (3 * Real.sqrt 3 / 4) - 0.335313| < 0.000001 := by
  have hang : (120 : ℝ) * Real.pi / 360 = Real.pi / 3 := by ring
  obtain ⟨maps, hm, e1, e2⟩ := corner_entry Linear
  rw [corner_rr_linear] at e1 e2
  obtain ⟨hl, hu⟩ := corner_linear_bounds
  refine ⟨?_, ?_, ofocinvOf_four, by norm_num, ⟨maps, hm, e1, e2⟩, ?_⟩
  · rw [dimFOf_four, sqrt_thirty_two]
  · rw [dimFOf_four, sqrt_thirty_two]
    simp only [ofocinvOf, ofocOf, tan_real, pi_real, hang]
  · rw [abs_lt]
    constructor <;> linarith

/-- C12 fails as stated: the value `3/2 - (4/pi)*atan(3*sqrt(3)/4)` that the
corner pixel of the 4 by 4 region is mapped to with `fov = 180`, `pfov = 120`
and kind `Linear` is more than `1e-6` away from 0.335311. -/
theorem C12_counterexample :
    ∃ maps v, regionMaps 4 4 (180 : ℝ) 120 Linear = .ok maps ∧
      at2 maps.1 0 0 = .ok v ∧ at2 maps.2 0 0 = .ok v ∧
      v = 3 / 2 - 4 / Real.pi * Real.arctan (3 * Real.sqrt 3 / 4) ∧
      ¬ (|v - 0.335311| ≤ 0.000001) := by
  obtain ⟨maps, hm, e1, e2⟩ := corner_entry Linear
  rw [corner_rr_linear] at e1 e2
  obtain ⟨hl, _⟩ := corner_linear_bounds
  refine ⟨maps, _, hm, e1, e2, rfl, ?_⟩
  rw [abs_le]
  intro h
  linarith [h.2]

/-- C15: for the region of 4 columns and 4 rows with `fov = 180` and
`pfov = 120`, the `xs` value of the corner pixel (row 0, column 0), which is no
center pixel (`rd != 0`), is pairwise different for `Linear`, `EqualArea`,
`Orthographic` and `Stereographic`: the four values are strictly ordered,
Orthographic below EqualArea below Linear below Stereographic. -/
theorem C15_kinds_differ :
    (radialOf ((0 : Nat) : ℝ) ((0 : Nat) : ℝ) (ofocinvOf (dimFOf 4 4) 120)
      (((((4 : Nat) : Int) - 1 : Int) : ℝ) / 2) (((((4 : Nat) : Int) - 1 : Int) : ℝ) / 2)).rd
        ≠ 0 ∧
    ∃ mL mE mO mS vL vE vO vS,
      regionMaps 4 4 (180 : ℝ) 120 Linear = .ok mL ∧
      regionMaps 4 4 (180 : ℝ) 120 EqualArea = .ok mE ∧
      regionMaps 4 4 (180 : ℝ) 120 Orthographic = .ok mO ∧
      regionMaps 4 4 (180 : ℝ) 120 Stereographic = .ok mS ∧
      at2 mL.1 0 0 = .ok vL ∧ at2 mE.1 0 0 = .ok vE ∧
      at2 mO.1 0 0 = .ok vO ∧ at2 mS.1 0 0 = .ok vS ∧
      vO < vE ∧ vE < vL ∧ vL < vS ∧
      vL ≠ vE ∧ vL ≠ vO ∧ vL ≠ vS ∧ vE ≠ vO ∧ vE ≠ vS ∧ vO ≠ vS := by
  obtain ⟨mL, hL, eL, _⟩ := corner_entry Linear
  obtain ⟨mE, hE, eE, _⟩ := corner_entry EqualArea
  obtain ⟨mO, hO, eO, _⟩ := corner_entry Orthographic
  obtain ⟨mS, hS, eS, _⟩ := corner_entry Stereographic
  rw [corner_rr_linear] at eL
  rw [corner_rr_equalArea] at eE
  rw [corner_rr_orthographic] at eO
  rw [corner_rr_stereographic] at eS
  obtain ⟨b1, b2, b3, b4, b5, b6⟩ := corner_rr_bounds
  constructor
  · rw [corner_radial]
    have h2pos : 0 < Real.sqrt 2 := Real.sqrt_pos.mpr (by norm_num)
    simp only
    positivity
  · refine ⟨mL, mE, mO, mS, _, _, _, _, hL, hE, hO, hS, eL, eE, eO, eS, ?_, ?_, ?_,
      ?_, ?_, ?_, ?_, ?_, ?_⟩
    · linarith
    · linarith
    · linarith
    · exact ne_of_gt (by linarith)
    · exact ne_of_gt (by linarith)
    · exact ne_of_lt (by linarith)
    · exact ne_of_gt (by linarith)
    · exact ne_of_lt (by linarith)
    · exact ne_of_lt (by linarith)

end Claims

end Fisheyedewarp
